import Mathlib

/-!
# Socket-Chat: growable buffer, length-prefixed framing, fan-out and discovery

A shallow embedding of `src/common/common.cpp`, of the event loop of `src/server/server.cpp`
(fan-out, per-connection event handling, accept loop, discovery responder), and of the reply
parser of `src/client/client.cpp`, followed by theorems about them.

Conventions of the embedding.

* `uint8_t` is `Fin 256`; `size_t`, `uint32_t` and `ssize_t` values are `Nat` / `Int`, with the
  bound `SIZE_MAX` written out where the source tests against it.
* A C span `(pointer, len)` is the list of the `len` bytes it designates.
* `std::vector<uint8_t>` is its element list together with its capacity.
* Memory allocation is an oracle `alloc : Nat → Bool` telling whether a block of the given
  capacity can be obtained (`false` stands for an exception thrown by `std::vector::reserve`).
* A non-blocking transport is the list of bytes it has accepted so far together with a script
  giving the outcome of each future `write(2)` call; what a descriptor will deliver is likewise
  a script of `read(2)` outcomes, and what the listener will hand out a script of `accept(2)`
  outcomes.
* An event mask is a `Nat`, tested with `&&&` against the constants of `<sys/epoll.h>`.
-/

namespace SocketChat

/-! ## Bytes and vectors -/

/-- One `uint8_t`. -/
abbrev Byte := Fin 256

/-- `std::numeric_limits<size_t>::max()` on a 64-bit target. -/
def SIZE_MAX : Nat := 2 ^ 64 - 1

/-- `MAX_MESSAGE_SIZE` of `common.hpp`. -/
def MAX_MESSAGE_SIZE : Nat := 4096

/-- A `std::vector<uint8_t>`: the elements `[0, size)` and the capacity. -/
structure Vec where
  elems : List Byte
  capacity : Nat
deriving DecidableEq, Repr

namespace Vec

/-- The value of `size()`. -/
def size (v : Vec) : Nat := v.elems.length

/-- The call `std::vector::reserve(n)`: a no-op unless `n` exceeds the capacity, in which case
storage of exactly `n` elements is obtained (`none` when the allocation throws). -/
def reserve (alloc : Nat → Bool) (v : Vec) (n : Nat) : Option Vec :=
  if n > v.capacity then
    if alloc n then some { v with capacity := n } else none
  else some v

/-- The call `std::vector::resize(n)`: truncates, or pads with value-initialised (zero) bytes.
The capacity is raised to `n` when it was smaller; the callers below only resize within the
capacity they reserved. -/
def resize (v : Vec) (n : Nat) : Vec :=
  { elems := v.elems.take n ++ List.replicate (n - v.elems.length) 0
    capacity := max v.capacity n }

/-- The call `memcpy(data() + off, src, |src|)`. -/
def memcpy (v : Vec) (off : Nat) (src : List Byte) : Vec :=
  { v with elems := v.elems.take off ++ src ++ v.elems.drop (off + src.length) }

/-- The call `memmove(data(), data() + from, n)`. -/
def memmove (v : Vec) (start n : Nat) : Vec :=
  { v with elems := (v.elems.drop start).take n ++ v.elems.drop n }

end Vec

/-! ## `struct Buffer` -/

/-- The `struct Buffer` of `common.hpp`. -/
structure Buffer where
  data : Vec
  length : Nat
deriving DecidableEq, Repr

namespace Buffer

/-- A default-constructed buffer: empty vector, `length{0}`. -/
def empty : Buffer := { data := { elems := [], capacity := 0 }, length := 0 }

/-- The live span `[begin(), begin() + length)`. -/
def live (b : Buffer) : List Byte := b.data.elems.take b.length

/-- Representation invariant: `length ≤ data.size() ≤ data.capacity()`. -/
def wf (b : Buffer) : Prop :=
  b.length ≤ b.data.elems.length ∧ b.data.elems.length ≤ b.data.capacity

instance (b : Buffer) : Decidable b.wf := by unfold wf; infer_instance

/-- The `while (new_cap < min_capacity)` loop of `Buffer::reserve`, one iteration per unit of
fuel. -/
def grow_loop : Nat → Nat → Nat → Nat
  | 0, new_cap, _ => new_cap
  | fuel + 1, new_cap, min_capacity =>
    if new_cap < min_capacity then
      if new_cap > SIZE_MAX / 2 then min_capacity
      else grow_loop fuel (new_cap * 2) min_capacity
    else new_cap

/-- The capacity `Buffer::reserve` asks the vector for (lines 15-20). Every iteration doubles a
positive value and the loop leaves as soon as the value passes `SIZE_MAX / 2`, so 64 iterations
are never exceeded. -/
def new_capacity (capacity min_capacity : Nat) : Nat :=
  grow_loop 64 (if capacity ≠ 0 then capacity else 1024) min_capacity

/-- The method `Buffer::reserve`. Returns the status (`0` / `-1`) and the buffer afterwards. -/
def reserve (alloc : Nat → Bool) (b : Buffer) (min_capacity : Nat) : Int × Buffer :=
  if b.data.capacity ≥ min_capacity then (0, b)
  else
    let new_cap := new_capacity b.data.capacity min_capacity
    match b.data.reserve alloc new_cap with
    | none => (-1, b)
    | some d =>
      let d := if d.size < b.length then d.resize b.length else d
      (0, { b with data := d })

/-- The method `Buffer::append`, with `src` the `len` bytes to copy. -/
def append (alloc : Nat → Bool) (b : Buffer) (src : List Byte) : Int × Buffer :=
  if src.length = 0 then (0, b)
  else
    let r := b.reserve alloc (b.length + src.length)
    if r.1 ≠ 0 then (-1, r.2)
    else
      let b := r.2
      let d := if b.data.size < b.length then b.data.resize b.length else b.data
      let d := d.resize (b.length + src.length)
      let d := d.memcpy b.length src
      (0, { data := d, length := b.length + src.length })

/-- The method `Buffer::consume`. -/
def consume (b : Buffer) (len : Nat) : Buffer :=
  if len = 0 then b
  else if len ≥ b.length then { b with length := 0 }
  else { data := b.data.memmove len (b.length - len), length := b.length - len }

end Buffer

/-! ## The non-blocking transport -/

/-- Outcome of one `write(2)` call on a non-blocking descriptor: `wrote k` returns
`min k requested` (the room the kernel had), `wouldBlock` is `-1` with `EAGAIN`/`EWOULDBLOCK`,
`fail` is `-1` with any other `errno`. -/
inductive WriteRes where
  | wrote (k : Nat)
  | wouldBlock
  | fail
deriving DecidableEq, Repr

/-- The peer end of a descriptor: the bytes accepted so far, in order, and the outcomes of the
`write(2)` calls still to come. A descriptor whose script has run out would block. -/
structure Transport where
  written : List Byte
  script : List WriteRes
deriving DecidableEq, Repr

/-- A script entry that is not an error. The entry `wrote 0` stands for a `write` that returns
0, which a stream socket never does for a non-empty request and which
`write_fully_nonblocking` answers with `-1` like an error; it is not clean either. -/
def WriteRes.clean : WriteRes → Bool
  | .wrote k => decide (0 < k)
  | .wouldBlock => true
  | .fail => false

/-- The transport reports no error on any future call. -/
def Transport.noError (t : Transport) : Prop := ∀ r ∈ t.script, r.clean = true

instance (t : Transport) : Decidable t.noError := by unfold Transport.noError; infer_instance

/-- The loop of `write_fully_nonblocking`: `total` bytes of `data` are out already, `written`
is what the peer holds, the list argument is the remaining script. -/
def write_loop (data : List Byte) :
    List WriteRes → List Byte → Nat → Int × Transport
  | [], written, total => ((total : Int), ⟨written, []⟩)
  | r :: script, written, total =>
    if total < data.length then
      match r with
      | .wrote k =>
        let n := min k (data.length - total)
        if n > 0 then
          write_loop data script (written ++ (data.drop total).take n) (total + n)
        else (-1, ⟨written, script⟩)
      | .wouldBlock => ((total : Int), ⟨written, script⟩)
      | .fail => (-1, ⟨written, script⟩)
    else ((total : Int), ⟨written, r :: script⟩)

/-- The function `write_fully_nonblocking(fd, data, len)`: the return value and the transport
afterwards. -/
def write_fully_nonblocking (t : Transport) (data : List Byte) : Int × Transport :=
  write_loop data t.script t.written 0

/-- The function `flush_buffered_writes(fd, outbuf)`. -/
def flush_buffered_writes (t : Transport) (outbuf : Buffer) : Int × Transport × Buffer :=
  if outbuf.length = 0 then (0, t, outbuf)
  else
    let w := write_fully_nonblocking t outbuf.live
    if w.1 < 0 then (-1, w.2, outbuf)
    else
      let outbuf := outbuf.consume w.1.toNat
      (if outbuf.length = 0 then 1 else 0, w.2, outbuf)

/-! ## Framing -/

/-- The four bytes `hdr` after `nlen = htonl(len); memcpy(hdr, &nlen, 4)`: `len` as a `uint32_t`
in network byte order. -/
def hdr_bytes (len : Nat) : List Byte :=
  [⟨len / 2 ^ 24 % 256, Nat.mod_lt _ (by decide)⟩,
   ⟨len / 2 ^ 16 % 256, Nat.mod_lt _ (by decide)⟩,
   ⟨len / 2 ^ 8 % 256, Nat.mod_lt _ (by decide)⟩,
   ⟨len % 256, Nat.mod_lt _ (by decide)⟩]

/-- The value `ntohl(nlen)` after `memcpy(&nlen, p, 4)`: the big-endian reading of `p[0..3]`. -/
def be32 (p : List Byte) : Nat :=
  (p.getD 0 0).val * 2 ^ 24 + (p.getD 1 0).val * 2 ^ 16 + (p.getD 2 0).val * 2 ^ 8
    + (p.getD 3 0).val

/-- The function `send_framed_or_buffer(fd, outbuf, payload, len)` with `payload` the `len`
bytes of the message: the return value, the transport and the buffer afterwards. -/
def send_framed_or_buffer (alloc : Nat → Bool) (t : Transport) (outbuf : Buffer)
    (payload : List Byte) : Int × Transport × Buffer :=
  let len := payload.length
  if len > MAX_MESSAGE_SIZE then (-1, t, outbuf)
  else
    let hdr := hdr_bytes len
    if outbuf.length = 0 then
      let w := write_fully_nonblocking t hdr
      if w.1 < 0 then (-1, w.2, outbuf)
      else if w.1.toNat < 4 then
        let a := outbuf.append alloc (hdr.drop w.1.toNat)
        if a.1 ≠ 0 then (-1, w.2, a.2)
        else
          let a2 := a.2.append alloc payload
          if a2.1 ≠ 0 then (-1, w.2, a2.2) else (0, w.2, a2.2)
      else
        let w2 := write_fully_nonblocking w.2 payload
        if w2.1 < 0 then (-1, w2.2, outbuf)
        else if w2.1.toNat < len then
          let a := outbuf.append alloc (payload.drop w2.1.toNat)
          if a.1 ≠ 0 then (-1, w2.2, a.2) else (0, w2.2, a.2)
        else (0, w2.2, outbuf)
    else
      let a := outbuf.append alloc hdr
      if a.1 ≠ 0 then (-1, t, a.2)
      else
        let a2 := a.2.append alloc payload
        if a2.1 ≠ 0 then (-1, t, a2.2) else (0, t, a2.2)

/-- The function `has_complete_frame(inbuf, &out_len)`: the return value, and the value stored
through `out_len` when there is one. -/
def has_complete_frame (inbuf : Buffer) : Int × Option Nat :=
  if inbuf.length < 4 then (0, none)
  else
    let len := be32 inbuf.data.elems
    if len > MAX_MESSAGE_SIZE then (-2, none)
    else if inbuf.length ≥ 4 + len then (1, some len)
    else (0, none)

/-- The function `get_frame_view(inbuf, &payload, &len)`: the return value and, when it is `1`,
the stored pair: the offset of `payload` from `inbuf.begin()` and `len`. -/
def get_frame_view (inbuf : Buffer) : Int × Option (Nat × Nat) :=
  let h := has_complete_frame inbuf
  if h.1 ≠ 1 then (h.1, none)
  else (1, some (4, h.2.getD 0))

/-- The bytes a caller reads through a view `(begin() + off, len)` of the buffer. -/
def view_bytes (inbuf : Buffer) (v : Nat × Nat) : List Byte :=
  (inbuf.data.elems.drop v.1).take v.2

/-- The frame drain loop of `main` (the `for (;;)` after a successful read), one iteration per
unit of fuel, with `handle` standing for what is done with each payload (in the server,
`broadcast_to_others`, which skips the connection being drained). Returns the last value of
`hr`, the input buffer and the handler state afterwards. -/
def drain_loop {σ : Type} (handle : σ → List Byte → σ) :
    Nat → Buffer → σ → Int × Buffer × σ
  | 0, inbuf, s => ((has_complete_frame inbuf).1, inbuf, s)
  | fuel + 1, inbuf, s =>
    let hr := (has_complete_frame inbuf).1
    if hr = -2 then (hr, inbuf, s)
    else if hr ≠ 1 then (hr, inbuf, s)
    else
      match (get_frame_view inbuf).2 with
      | none => (hr, inbuf, s)
      | some v =>
        let s := handle s (view_bytes inbuf v)
        drain_loop handle fuel (inbuf.consume (4 + v.2)) s

/-- The drain loop collecting the payloads in order. Every iteration consumes at least four
bytes, so `length + 1` iterations are never exceeded. -/
def drain (inbuf : Buffer) : Int × Buffer × List (List Byte) :=
  drain_loop (fun acc p => acc ++ [p]) (inbuf.length + 1) inbuf []

/-- What the reactor does with one chunk of received bytes: append it to the inbound buffer,
then drain. The frames found are added to `frames`. -/
def feed (alloc : Nat → Bool) (st : Int × Buffer × List (List Byte)) (chunk : List Byte) :
    Int × Buffer × List (List Byte) :=
  let inbuf := (st.2.1.append alloc chunk).2
  let d := drain inbuf
  (d.1, d.2.1, st.2.2 ++ d.2.2)

/-! ## Byte-level reading of the decoder, used to state and prove the theorems -/

/-- The value `has_complete_frame` returns, read off the live bytes of the buffer. -/
def frame_status (bs : List Byte) : Int :=
  if bs.length < 4 then 0
  else if be32 bs > MAX_MESSAGE_SIZE then -2
  else if bs.length ≥ 4 + be32 bs then 1
  else 0

/-- The drain loop read off the live bytes: the payloads taken off the front, the status that
stopped the loop, and the bytes left. -/
def split_frames : Nat → List Byte → List (List Byte) × Int × List Byte
  | 0, bs => ([], frame_status bs, bs)
  | fuel + 1, bs =>
    if frame_status bs = 1 then
      let r := split_frames fuel (bs.drop (4 + be32 bs))
      ((bs.drop 4).take (be32 bs) :: r.1, r.2)
    else ([], frame_status bs, bs)

/-! ## The server: registry and fan-out -/

/-- The `struct Client` of `server.cpp`; the `next` chain is the order of the registry list. -/
structure Client where
  fd : Int
  inbuf : Buffer
  outbuf : Buffer
  closed : Bool
deriving DecidableEq, Repr

/-- What lies behind the descriptors: the transport of every descriptor, and the epoll interest
list (`none`: not registered; `some out`: registered for `EPOLLIN | EPOLLET | EPOLLRDHUP`, and
for `EPOLLOUT` as well iff `out`). -/
structure World where
  tr : Int → Transport
  interest : Int → Option Bool

/-- The function `epoll_update_events(epfd, fd, EPOLLIN, enable_out)`: `EPOLL_CTL_MOD`, falling
back on `EPOLL_CTL_ADD`; either way `fd` ends up registered with the new event mask. -/
def epoll_update_events (w : World) (fd : Int) (enable_out : Bool) : World :=
  { w with interest := Function.update w.interest fd (some enable_out) }

/-- The function `broadcast_to_others(epfd, clients, sender_fd, data, len)`: the world and the
registry afterwards. -/
def broadcast_to_others (alloc : Nat → Bool) (sender_fd : Int) (data : List Byte) :
    World → List Client → World × List Client
  | w, [] => (w, [])
  | w, c :: rest =>
    if c.fd = sender_fd then
      let r := broadcast_to_others alloc sender_fd data w rest
      (r.1, c :: r.2)
    else
      let s := send_framed_or_buffer alloc (w.tr c.fd) c.outbuf data
      let w := { w with tr := Function.update w.tr c.fd s.2.1 }
      if s.1 < 0 then
        let r := broadcast_to_others alloc sender_fd data w rest
        (r.1, { c with outbuf := s.2.2, closed := true } :: r.2)
      else
        let w := if s.2.2.length > 0 then epoll_update_events w c.fd true else w
        let r := broadcast_to_others alloc sender_fd data w rest
        (r.1, { c with outbuf := s.2.2 } :: r.2)

/-- The outgoing stream of a connection: what its transport has accepted, followed by what
waits in its outbound buffer. -/
def out_stream (w : World) (c : Client) : List Byte := (w.tr c.fd).written ++ c.outbuf.live

/-- The wire form of a message: four-byte big-endian length, then the payload. -/
def frame (payload : List Byte) : List Byte := hdr_bytes payload.length ++ payload

/-- What `broadcast_to_others` does to one registered connection, given the world it finds:
the sender is left alone; any other connection gets the outbox `send_framed_or_buffer` leaves,
and `closed` set when that call fails. -/
def deliver (alloc : Nat → Bool) (sender_fd : Int) (data : List Byte) (w : World) (c : Client) :
    Client :=
  if c.fd = sender_fd then c
  else
    let s := send_framed_or_buffer alloc (w.tr c.fd) c.outbuf data
    if s.1 < 0 then { c with outbuf := s.2.2, closed := true } else { c with outbuf := s.2.2 }

/-- A registry of four connections on descriptors 3 to 6, all buffers empty, none closed. -/
def example_registry : List Client :=
  [⟨3, Buffer.empty, Buffer.empty, false⟩, ⟨4, Buffer.empty, Buffer.empty, false⟩,
   ⟨5, Buffer.empty, Buffer.empty, false⟩, ⟨6, Buffer.empty, Buffer.empty, false⟩]

/-- A world in which every descriptor takes two bytes, then would block. -/
def quiet_world : World := ⟨fun _ => ⟨[], [.wrote 2]⟩, fun _ => none⟩

/-- A world in which descriptor 4 is broken, descriptor 5 accepts nothing and every other
descriptor takes what it is given. -/
def rough_world : World :=
  ⟨fun fd => if fd = 4 then ⟨[], [.fail]⟩ else if fd = 5 then ⟨[], []⟩
      else ⟨[], [.wrote 100, .wrote 100]⟩,
    fun _ => none⟩

/-! ## Discovery -/

/-- The literal `DISCOVER_REQUEST`, the ASCII text `CHAT_DISCOVER?`. -/
def DISCOVER_REQUEST : List Byte := [67, 72, 65, 84, 95, 68, 73, 83, 67, 79, 86, 69, 82, 63]

/-- The literal `DISCOVER_RESPONSE`, the ASCII text `CHAT_HERE`. -/
def DISCOVER_RESPONSE : List Byte := [67, 72, 65, 84, 95, 72, 69, 82, 69]

/-- The ASCII digit of a value below ten. -/
def digit_char (d : Nat) : Byte := ⟨(48 + d % 10) % 256, Nat.mod_lt _ (by decide)⟩

/-- Decimal digits of `n`, most significant first, at most `fuel` of them. -/
def fmt_digits : Nat → Nat → List Byte
  | 0, _ => []
  | fuel + 1, n => if n < 10 then [digit_char n] else fmt_digits fuel (n / 10) ++ [digit_char n]

/-- The `printf` conversion `%u` of an `unsigned` (32 bits, at most ten digits). -/
def fmt_u (n : Nat) : List Byte := fmt_digits 10 (n % 2 ^ 32)

/-- The C predicate `isspace` in the "C" locale. -/
def isspace (c : Byte) : Bool := c.val = 32 || (9 ≤ c.val && c.val ≤ 13)

/-- The C predicate `isdigit`. -/
def isdigit (c : Byte) : Bool := 48 ≤ c.val && c.val ≤ 57

/-- Skips leading white space, as every `scanf` conversion but `%c`, `%[` and `%n` does. -/
def skip_space : List Byte → List Byte
  | [] => []
  | c :: cs => if isspace c then skip_space cs else c :: cs

/-- Reads the longest run of decimal digits, accumulating the value. -/
def scan_digits : List Byte → Nat → Nat
  | [], acc => acc
  | c :: cs, acc => if isdigit c then scan_digits cs (acc * 10 + (c.val - 48)) else acc

/-- The call `sscanf(s, "%u", &p)` on a NUL-terminated string: `some v` when a value is stored,
`none` on a matching failure (`p` keeps its value). White space is skipped, an optional sign is
accepted, then at least one digit is required; the value is reduced to 32 bits. -/
def sscanf_u (s : List Byte) : Option Nat :=
  let s := skip_space s
  let neg := s.head? = some 45
  let s := if s.head? = some 45 ∨ s.head? = some 43 then s.tail else s
  match s with
  | [] => none
  | c :: _ =>
    if isdigit c then
      let v := scan_digits s 0 % 2 ^ 32
      some (if neg then (2 ^ 32 - v) % 2 ^ 32 else v)
    else none

/-- The discovery responder of the server's `main`, for one received datagram: `recvfrom` keeps
at most `sizeof(buf) - 1 = 511` bytes; the reply sent, if any. `tcp_port` is a `uint16_t`. -/
def discovery_reply (tcp_port : Nat) (dgram : List Byte) : Option (List Byte) :=
  let buf := dgram.take 511
  let r := buf.length
  if r ≥ DISCOVER_REQUEST.length ∧ buf.take DISCOVER_REQUEST.length = DISCOVER_REQUEST then
    some (DISCOVER_RESPONSE ++ [32] ++ fmt_u (tcp_port % 2 ^ 16))
  else none

/-- The reply handling of the client's `discover_server`: `recvfrom` keeps at most
`sizeof(buf) - 1 = 255` bytes and a NUL is stored after them; `some out_port` when the function
returns `true`, `none` when it returns `false`. -/
def discover_server_parse (dgram : List Byte) : Option Nat :=
  let buf := dgram.take 255
  let r := buf.length
  if r ≥ DISCOVER_RESPONSE.length ∧ buf.take DISCOVER_RESPONSE.length = DISCOVER_RESPONSE then
    let p := (sscanf_u (buf.drop DISCOVER_RESPONSE.length ++ [0])).getD 0
    some (p % 2 ^ 16)
  else none

/-! ## The reactor: reads, readiness events and the registry -/

/-- Outcome of one `read(2)` call on a non-blocking descriptor: `data bs` hands over the bytes
`bs` (at most `sizeof(temp) = 8192` of them; no byte means a return of 0), `eof` is a return
of 0, `wouldBlock` is `-1` with `EAGAIN`/`EWOULDBLOCK`, `fail` is `-1` with any other `errno`. -/
inductive ReadRes where
  | data (bs : List Byte)
  | eof
  | wouldBlock
  | fail
deriving DecidableEq, Repr

/-- The loop of `read_into_buffer_nonblocking`: the list argument is the script of the `read`
calls still to come (a descriptor whose script has run out would block), `total` the bytes read
so far. Returns the return value, the script left and the buffer. -/
def read_loop (alloc : Nat → Bool) : List ReadRes → Buffer → Int → Int × List ReadRes × Buffer
  | [], buffer, total => (total, [], buffer)
  | r :: script, buffer, total =>
    match r with
    | .data bs =>
      let chunk := bs.take 8192
      if chunk.length > 0 then
        let a := buffer.append alloc chunk
        if a.1 ≠ 0 then (-1, script, a.2)
        else read_loop alloc script a.2 (total + chunk.length)
      else (total, script, buffer)
    | .eof => (total, script, buffer)
    | .wouldBlock => (total, script, buffer)
    | .fail => (-1, script, buffer)

/-- The function `read_into_buffer_nonblocking(fd, buffer)`, with `script` what `fd` will
deliver. -/
def read_into_buffer_nonblocking (alloc : Nat → Bool) (script : List ReadRes) (buffer : Buffer) :
    Int × List ReadRes × Buffer :=
  read_loop alloc script buffer 0

/-- The constant `EPOLLIN` of `<sys/epoll.h>`. -/
def EPOLLIN : Nat := 0x001

/-- The constant `EPOLLOUT` of `<sys/epoll.h>`. -/
def EPOLLOUT : Nat := 0x004

/-- The constant `EPOLLHUP` of `<sys/epoll.h>`. -/
def EPOLLHUP : Nat := 0x010

/-- The constant `EPOLLRDHUP` of `<sys/epoll.h>`. -/
def EPOLLRDHUP : Nat := 0x2000

/-- Outcome of one `accept(2)` call followed by `new (std::nothrow) Client()`: a connection on
descriptor `cfd` whose record could be allocated, a connection whose record could not, or an
error other than `EAGAIN`. A listener whose script has run out would block. -/
inductive AcceptRes where
  | conn (cfd : Int)
  | conn_nomem (cfd : Int)
  | fail
deriving DecidableEq, Repr

/-- The state `main` works on: the two service descriptors, the configured stream port, what
lies behind the descriptors (transports, epoll interest, what each descriptor will deliver to
`read`, the connections waiting on the listener, the datagrams waiting on and sent from the
discovery socket, the descriptors passed to `close`), and the registry `clients`, head first. -/
structure Server where
  listen_fd : Int
  udp_fd : Int
  tcp_port : Nat
  world : World
  rx : Int → List ReadRes
  backlog : List AcceptRes
  udp_in : List (List Byte)
  udp_out : List (List Byte)
  released : List Int
  clients : List Client

/-- The search `while (c && c->fd != fd) c = c->next`: the position in the registry and the
record of the first connection on descriptor `fd`. -/
def find_client (fd : Int) : List Client → Option (Nat × Client)
  | [] => none
  | c :: rest =>
    if c.fd = fd then some (0, c)
    else (find_client fd rest).map (fun p => (p.1 + 1, p.2))

/-- The function `remove_client(epfd, &clients, c)` for the record `c` at position `i` of the
registry: `EPOLL_CTL_DEL`, `close`, unlink. -/
def remove_client (s : Server) (i : Nat) (c : Client) : Server :=
  { s with
    world := { s.world with interest := Function.update s.world.interest c.fd none }
    released := s.released ++ [c.fd]
    clients := s.clients.eraseIdx i }

/-- The `if (e & EPOLLIN)` block of `main` for the connection `c`, whose record is held apart
from the registry while its event is handled: read, then, when bytes came, the frame drain loop
with `broadcast_to_others` on each payload. -/
def on_readable (alloc : Nat → Bool) (s : Server) (c : Client) : Server × Client :=
  let r := read_into_buffer_nonblocking alloc (s.rx c.fd) c.inbuf
  let s := { s with rx := Function.update s.rx c.fd r.2.1 }
  let c := { c with inbuf := r.2.2 }
  if r.1 < 0 then (s, { c with closed := true })
  else if r.1 = 0 then (s, { c with closed := true })
  else
    let d := drain_loop
      (fun (σ : World × List Client) payload => broadcast_to_others alloc c.fd payload σ.1 σ.2)
      (c.inbuf.length + 1) c.inbuf (s.world, s.clients)
    ({ s with world := d.2.2.1, clients := d.2.2.2 },
     { c with inbuf := d.2.1, closed := if d.1 = -2 then true else c.closed })

/-- The `if ((e & EPOLLOUT) && c->outbuf.length > 0)` block of `main`, once its test has
passed. -/
def on_writable (s : Server) (c : Client) : Server × Client :=
  let f := flush_buffered_writes (s.world.tr c.fd) c.outbuf
  let w := { s.world with tr := Function.update s.world.tr c.fd f.2.1 }
  let c := { c with outbuf := f.2.2 }
  let c := if f.1 < 0 then { c with closed := true } else c
  let w := if c.outbuf.length = 0 then epoll_update_events w c.fd false else w
  ({ s with world := w }, c)

/-- The two I/O blocks of the per-connection branch of `main`, in source order, each behind
its own test of the event mask `e`. -/
def ready_blocks (alloc : Nat → Bool) (e : Nat) (s : Server) (c : Client) : Server × Client :=
  let r := if e &&& EPOLLIN ≠ 0 then on_readable alloc s c else (s, c)
  if e &&& EPOLLOUT ≠ 0 ∧ r.2.outbuf.length > 0 then on_writable r.1 r.2 else r

/-- The end of the per-connection branch: the record goes back to its place `i` in the
registry, and `if (c->closed) remove_client(...)`. -/
def finish_event (i : Nat) (r : Server × Client) : Server :=
  let s := { r.1 with clients := r.1.clients.set i r.2 }
  if r.2.closed then remove_client s i r.2 else s

/-- The per-connection branch of the event loop of `main` (lines 186-231) for one event
`(fd, e)`. -/
def handle_client_event (alloc : Nat → Bool) (s : Server) (fd : Int) (e : Nat) : Server :=
  match find_client fd s.clients with
  | none =>
    { s with
      world := { s.world with interest := Function.update s.world.interest fd none }
      released := s.released ++ [fd] }
  | some (i, c) =>
    let c := if e &&& (EPOLLHUP ||| EPOLLRDHUP) ≠ 0 then { c with closed := true } else c
    finish_event i (ready_blocks alloc e s c)

/-- The accept loop of `main`: every waiting connection is taken, made a `Client` at the head
of the registry and registered for `EPOLLIN | EPOLLET | EPOLLRDHUP`. -/
def accept_loop : List AcceptRes → Server → Server
  | [], s => { s with backlog := [] }
  | .fail :: rest, s => { s with backlog := rest }
  | .conn_nomem cfd :: rest, s => accept_loop rest { s with released := s.released ++ [cfd] }
  | .conn cfd :: rest, s =>
    accept_loop rest
      { s with
        world := { s.world with interest := Function.update s.world.interest cfd (some false) }
        clients := ⟨cfd, Buffer.empty, Buffer.empty, false⟩ :: s.clients }

/-- The discovery branch of `main`: every waiting datagram is received and answered when it
asks for the server. -/
def discovery_responder (s : Server) : Server :=
  { s with
    udp_in := []
    udp_out := s.udp_out ++ s.udp_in.filterMap (discovery_reply s.tcp_port) }

/-- The body of `for (int i = 0; i < n; ++i)` in `main` for one event `(fd, e)`. -/
def handle_event (alloc : Nat → Bool) (s : Server) (ev : Int × Nat) : Server :=
  if ev.1 = s.listen_fd then accept_loop s.backlog s
  else if ev.1 = s.udp_fd then discovery_responder s
  else handle_client_event alloc s ev.1 ev.2

/-- One cycle of the event loop: the batch `epoll_wait` returned, handled in order. -/
def process_batch (alloc : Nat → Bool) (s : Server) (events : List (Int × Nat)) : Server :=
  events.foldl (handle_event alloc) s

/-- The state of `main` when it enters its loop: no connection, listener on descriptor 3,
discovery socket on descriptor 4, both registered for `EPOLLIN | EPOLLET`; `world`, `rx` and
`backlog` say what the peers will do. -/
def boot (tcp_port : Nat) (tr : Int → Transport) (rx : Int → List ReadRes)
    (backlog : List AcceptRes) (udp_in : List (List Byte)) : Server :=
  { listen_fd := 3, udp_fd := 4, tcp_port := tcp_port
    world := ⟨tr, fun fd => if fd = 3 ∨ fd = 4 then some false else none⟩
    rx := rx, backlog := backlog, udp_in := udp_in, udp_out := [], released := []
    clients := [] }

/-- A server one cycle after `boot`: the listener has handed out descriptors 6, 7 and 8, so the
registry is 8, 7, 6. Descriptor 6 is broken (every write fails), descriptor 7 takes what it is
given, and one frame with payload `7, 8` waits to be read on descriptor 8. -/
def example_server : Server :=
  process_batch (fun _ => true)
    (boot 5050 (fun fd => if fd = 6 then ⟨[], [.fail]⟩ else ⟨[], [.wrote 100, .wrote 100]⟩)
      (fun fd => if fd = 8 then [.data [0, 0, 0, 2, 7, 8]] else [])
      [.conn 6, .conn 7, .conn 8] [])
    [(3, EPOLLIN)]

/-! ## One connection's outbound side over time -/

/-- A call made on one connection's transport and outbound buffer. -/
inductive OutCall where
  | send (payload : List Byte)
  | flush
deriving DecidableEq, Repr

/-- The length of the payload a call carries (none for a flush). -/
def OutCall.size : OutCall → Nat
  | .send payload => payload.length
  | .flush => 0

/-- Runs one call; the return value is dropped, transport and buffer are kept. -/
def run_call (alloc : Nat → Bool) (st : Transport × Buffer) : OutCall → Transport × Buffer
  | .send payload => (send_framed_or_buffer alloc st.1 st.2 payload).2
  | .flush => (flush_buffered_writes st.1 st.2).2

/-- Runs the calls in order. -/
def run_calls (alloc : Nat → Bool) (st : Transport × Buffer) (calls : List OutCall) :
    Transport × Buffer :=
  calls.foldl (run_call alloc) st

/-- The frames of the `send` calls of a list of calls, concatenated in call order. -/
def frames_of : List OutCall → List Byte
  | [] => []
  | .send payload :: rest => frame payload ++ frames_of rest
  | .flush :: rest => frames_of rest

/-! ## Facts about the buffer -/

theorem Buffer.grow_loop_ge (fuel new_cap m : Nat) (h : SIZE_MAX / 2 < new_cap * 2 ^ fuel) :
    m ≤ Buffer.grow_loop (fuel + 1) new_cap m := by
  induction fuel generalizing new_cap with
  | zero =>
    simp only [Buffer.grow_loop]
    split_ifs <;> omega
  | succ f ih =>
    rw [Buffer.grow_loop]
    split_ifs with h1 h2
    · exact le_refl _
    · apply ih
      rw [pow_succ] at h
      nlinarith
    · omega

theorem Buffer.grow_loop_mono (fuel new_cap m : Nat) :
    new_cap ≤ Buffer.grow_loop fuel new_cap m := by
  induction fuel generalizing new_cap with
  | zero => simp [Buffer.grow_loop]
  | succ f ih =>
    rw [Buffer.grow_loop]
    split_ifs with h1 h2
    · omega
    · have := ih (new_cap * 2)
      omega
    · exact le_refl _

theorem Buffer.new_capacity_ge (c m : Nat) : m ≤ Buffer.new_capacity c m := by
  unfold Buffer.new_capacity
  apply Buffer.grow_loop_ge
  have h : 1 ≤ (if c ≠ 0 then c else 1024) := by split_ifs <;> omega
  have h2 : SIZE_MAX / 2 < 1 * 2 ^ 63 := by decide
  exact lt_of_lt_of_le h2 (Nat.mul_le_mul_right _ h)

/-- A successful `reserve` on a well-formed buffer changes the capacity only. -/
theorem Buffer.reserve_ok (alloc : Nat → Bool) (b : Buffer) (m : Nat) (hwf : b.wf)
    (h : (b.reserve alloc m).1 = 0) :
    (b.reserve alloc m).2.data.elems = b.data.elems ∧ (b.reserve alloc m).2.length = b.length
      ∧ m ≤ (b.reserve alloc m).2.data.capacity
      ∧ b.data.capacity ≤ (b.reserve alloc m).2.data.capacity := by
  unfold Buffer.reserve at h ⊢
  obtain ⟨h1, h2⟩ := hwf
  by_cases hc : b.data.capacity ≥ m
  · simp [hc]
  · simp only [hc, if_false] at h ⊢
    have hge := Buffer.new_capacity_ge b.data.capacity m
    unfold Vec.reserve at h ⊢
    have hgt : Buffer.new_capacity b.data.capacity m > b.data.capacity := by omega
    simp only [hgt, if_true] at h ⊢
    cases ha : alloc (Buffer.new_capacity b.data.capacity m)
    · simp [ha] at h
    · have hs : ¬ (b.data.elems.length < b.length) := by omega
      simp [Vec.size, hs]
      omega

theorem Buffer.reserve_succeeds (alloc : Nat → Bool) (b : Buffer) (m : Nat)
    (ha : ∀ n, alloc n = true) : (b.reserve alloc m).1 = 0 := by
  unfold Buffer.reserve Vec.reserve
  simp only [ha, if_true]
  split_ifs <;> rfl

theorem Vec.append_elems (v : Vec) (len : Nat) (src : List Byte) (h : len ≤ v.elems.length) :
    ((v.resize (len + src.length)).memcpy len src).elems = v.elems.take len ++ src := by
  simp only [Vec.memcpy, Vec.resize]
  have hl : (List.take (len + src.length) v.elems
      ++ List.replicate (len + src.length - v.elems.length) (0 : Byte)).length
      = len + src.length := by
    simp only [List.length_append, List.length_take, List.length_replicate]
    omega
  have h1 : List.take len (List.take (len + src.length) v.elems
      ++ List.replicate (len + src.length - v.elems.length) (0 : Byte))
      = List.take len v.elems := by
    rw [List.take_append_of_le_length, List.take_take]
    · congr 1
      omega
    · simp only [List.length_take]
      omega
  have h2 : List.drop (len + src.length) (List.take (len + src.length) v.elems
      ++ List.replicate (len + src.length - v.elems.length) (0 : Byte)) = [] := by
    apply List.drop_eq_nil_of_le
    omega
  rw [h1, h2, List.append_nil]

/-- A successful `append` on a well-formed buffer adds the bytes at the end of the live span. -/
theorem Buffer.append_ok (alloc : Nat → Bool) (b : Buffer) (src : List Byte) (hwf : b.wf)
    (h : (b.append alloc src).1 = 0) :
    (b.append alloc src).2.wf ∧ (b.append alloc src).2.live = b.live ++ src
      ∧ (b.append alloc src).2.length = b.length + src.length := by
  unfold Buffer.append at h ⊢
  by_cases hs : src.length = 0
  · have : src = [] := List.length_eq_zero.mp hs
    subst this
    simp [hwf]
  · simp only [hs, if_false] at h ⊢
    by_cases hr : (b.reserve alloc (b.length + src.length)).1 = 0
    · obtain ⟨e1, e2, e3, _⟩ := Buffer.reserve_ok alloc b _ hwf hr
      obtain ⟨w1, w2⟩ := hwf
      have hn : ¬ ((b.reserve alloc (b.length + src.length)).2.data.elems.length < b.length) := by
        rw [e1]
        omega
      simp only [hr, ne_eq, not_true_eq_false, if_false, e2, Vec.size, hn]
      have w1' : b.length ≤ (b.reserve alloc (b.length + src.length)).2.data.elems.length := by
        rw [e1]
        exact w1
      have key := Vec.append_elems (b.reserve alloc (b.length + src.length)).2.data b.length src w1'
      refine ⟨?_, ?_, trivial⟩
      · refine ⟨?_, ?_⟩
        · show b.length + src.length ≤ _
          rw [key, e1]
          simp only [List.length_append, List.length_take]
          omega
        · rw [key, e1]
          simp only [Vec.memcpy, Vec.resize, List.length_append, List.length_take]
          omega
      · show List.take (b.length + src.length) _ = _
        rw [key, e1, Buffer.live]
        apply List.take_of_length_le
        simp only [List.length_append, List.length_take]
        omega
    · simp [hr] at h

theorem Buffer.append_succeeds (alloc : Nat → Bool) (b : Buffer) (src : List Byte)
    (ha : ∀ n, alloc n = true) : (b.append alloc src).1 = 0 := by
  unfold Buffer.append
  have := Buffer.reserve_succeeds alloc b (b.length + src.length) ha
  split_ifs <;> simp_all

/-- The method `consume` on a well-formed buffer drops a prefix of the live span. -/
theorem Buffer.consume_ok (b : Buffer) (n : Nat) (hwf : b.wf) :
    (b.consume n).wf ∧ (b.consume n).live = b.live.drop n
      ∧ (b.consume n).length = b.length - n := by
  obtain ⟨w1, w2⟩ := hwf
  unfold Buffer.consume
  by_cases h0 : n = 0
  · subst h0
    simp [Buffer.wf, w1, w2]
  · by_cases h1 : n ≥ b.length
    · simp only [h0, h1, if_false, if_true]
      refine ⟨⟨by simp, w2⟩, ?_, by omega⟩
      simp only [Buffer.live, List.take_zero]
      rw [List.drop_eq_nil_iff.mpr]
      simp only [List.length_take]
      omega
    · simp only [h0, h1, if_false]
      refine ⟨?_, ?_, trivial⟩
      · simp only [Buffer.wf, Vec.memmove, List.length_append, List.length_take,
          List.length_drop]
        omega
      · simp only [Buffer.live, Vec.memmove]
        rw [List.take_append_eq_append_take]
        simp only [List.take_take, List.length_take, List.length_drop, min_self]
        have : b.length - n - min (b.length - n) (b.data.elems.length - n) = 0 := by omega
        rw [this, List.take_zero, List.append_nil, List.drop_take]

/-- What the doubling loop returns: either the request itself, which happens only when a term
of the doubling sequence below the request has passed `SIZE_MAX / 2`, or the first term of the
doubling sequence that is not below the request. -/
theorem Buffer.grow_loop_char (fuel new_cap m : Nat) :
    (Buffer.grow_loop fuel new_cap m = m
        ∧ ∃ j, SIZE_MAX / 2 < new_cap * 2 ^ j ∧ new_cap * 2 ^ j < m)
      ∨ ∃ k, Buffer.grow_loop fuel new_cap m = new_cap * 2 ^ k
          ∧ ∀ j, j < k → new_cap * 2 ^ j < m := by
  induction fuel generalizing new_cap with
  | zero => exact Or.inr ⟨0, by simp [Buffer.grow_loop], by intro j hj; omega⟩
  | succ f ih =>
    rw [Buffer.grow_loop]
    split_ifs with h1 h2
    · exact Or.inl ⟨rfl, 0, by simpa using h2, by simpa using h1⟩
    · rcases ih (new_cap * 2) with ⟨e, j, hj1, hj2⟩ | ⟨k, e, hk⟩
      · refine Or.inl ⟨e, j + 1, ?_, ?_⟩
        · rw [pow_succ, mul_comm (2 ^ j) 2, ← mul_assoc]
          exact hj1
        · rw [pow_succ, mul_comm (2 ^ j) 2, ← mul_assoc]
          exact hj2
      · refine Or.inr ⟨k + 1, ?_, ?_⟩
        · rw [e, pow_succ, mul_comm (2 ^ k) 2, ← mul_assoc]
        · intro j hj
          cases j with
          | zero => simpa using h1
          | succ i =>
            have := hk i (by omega)
            rw [pow_succ, mul_comm (2 ^ i) 2, ← mul_assoc]
            exact this
    · exact Or.inr ⟨0, by simp, by intro j hj; omega⟩

/-- The capacity after a successful growing `reserve` on a well-formed buffer is the requested
one of `new_capacity`. -/
theorem Buffer.reserve_capacity (alloc : Nat → Bool) (b : Buffer) (m : Nat) (hwf : b.wf)
    (h : (b.reserve alloc m).1 = 0) (hc : b.data.capacity < m) :
    (b.reserve alloc m).2.data.capacity = Buffer.new_capacity b.data.capacity m := by
  unfold Buffer.reserve at h ⊢
  obtain ⟨h1, h2⟩ := hwf
  have hc' : ¬ (b.data.capacity ≥ m) := by omega
  simp only [hc', if_false] at h ⊢
  have hge := Buffer.new_capacity_ge b.data.capacity m
  unfold Vec.reserve at h ⊢
  have hgt : Buffer.new_capacity b.data.capacity m > b.data.capacity := by omega
  simp only [hgt, if_true] at h ⊢
  cases ha : alloc (Buffer.new_capacity b.data.capacity m)
  · simp [ha] at h
  · have hs : ¬ (b.data.elems.length < b.length) := by omega
    simp [Vec.size, hs]

/-- C8. `Buffer::consume` is total and drops a prefix: on a buffer whose live bytes are `b`,
`consume(n)` leaves no live byte when `n ≥ |b|`, and leaves exactly `b` without its first `n`
bytes, in order and from offset 0 of the storage, when `n < |b|`; the length field counts the
live bytes before and after. -/
theorem consume_drops_front (b : Buffer) (n : Nat) (hwf : b.wf) :
    b.live.length = b.length
      ∧ (n ≥ b.live.length → (b.consume n).live = [] ∧ (b.consume n).length = 0)
      ∧ (n < b.live.length →
          (b.consume n).data.elems.take (b.live.length - n) = b.live.drop n
            ∧ (b.consume n).live = b.live.drop n
            ∧ (b.consume n).length = b.live.length - n) := by
  obtain ⟨hw, hl, hn⟩ := Buffer.consume_ok b n hwf
  have hlen : b.live.length = b.length := by
    simp only [Buffer.live, List.length_take]
    exact Nat.min_eq_left hwf.1
  refine ⟨hlen, ?_, ?_⟩
  · intro h
    refine ⟨?_, by omega⟩
    rw [hl]
    exact List.drop_eq_nil_of_le h
  · intro h
    refine ⟨?_, hl, by omega⟩
    rw [← hl, hlen, ← hn]
    rfl

theorem consume_drops_front_witness :
    (Buffer.consume ⟨⟨[10, 20, 30, 40, 50], 8⟩, 4⟩ 1).live = [20, 30, 40]
      ∧ (Buffer.consume ⟨⟨[10, 20, 30, 40, 50], 8⟩, 4⟩ 4).live = []
      ∧ (Buffer.consume ⟨⟨[10, 20, 30, 40, 50], 8⟩, 4⟩ 9).live = []
      ∧ (Buffer.live ⟨⟨[10, 20, 30, 40, 50], 8⟩, 4⟩).length = 4 :=
  ⟨by decide, by decide, by decide,
    (consume_drops_front ⟨⟨[10, 20, 30, 40, 50], 8⟩, 4⟩ 1 (by decide)).1⟩

/-- C9, as the spec states it, fails: a buffer of capacity 1024 (a fresh buffer after its first
one-byte append) asked for 3000 bytes, more than double its capacity, ends with capacity 4096,
not 3000. -/
theorem reserve_exact_fit_counterexample :
    (Buffer.empty.append (fun _ => true) [0]).2 = ⟨⟨[0], 1024⟩, 1⟩
      ∧ 3000 > 2 * (Buffer.mk ⟨[0], 1024⟩ 1).data.capacity
      ∧ (Buffer.reserve (fun _ => true) ⟨⟨[0], 1024⟩, 1⟩ 3000).1 = 0
      ∧ (Buffer.reserve (fun _ => true) ⟨⟨[0], 1024⟩, 1⟩ 3000).2.data.capacity = 4096
      ∧ ¬ ((Buffer.reserve (fun _ => true) ⟨⟨[0], 1024⟩, 1⟩ 3000).2.data.capacity = 3000) := by
  decide

/-- C9, amended. A successful `reserve(m)` on a buffer of capacity `c` never shrinks the
capacity and leaves it at least `m`; it leaves it unchanged when `m ≤ c`; when `c < m` (and
`c ≤ SIZE_MAX / 2`) the new capacity is at least `2c`; and when `c < m` the new capacity is the
first term not below `m` of the doubling sequence `c0, 2 c0, 4 c0, ...` started at `c0 = c`
(`1024` when `c = 0`), whatever the ratio of `m` to `c`. It is `m` itself, instead, only when a
term of that sequence below `m` has passed `SIZE_MAX / 2`, which no `m ≤ 2 ^ 63` allows. -/
theorem reserve_growth (alloc : Nat → Bool) (b : Buffer) (m : Nat) (hwf : b.wf)
    (h : (b.reserve alloc m).1 = 0) :
    b.data.capacity ≤ (b.reserve alloc m).2.data.capacity
      ∧ m ≤ (b.reserve alloc m).2.data.capacity
      ∧ (m ≤ b.data.capacity → (b.reserve alloc m).2 = b)
      ∧ (b.data.capacity < m → b.data.capacity ≤ SIZE_MAX / 2 →
          2 * b.data.capacity ≤ (b.reserve alloc m).2.data.capacity)
      ∧ (b.data.capacity < m →
          ((b.reserve alloc m).2.data.capacity = m
            ∧ ∃ j, SIZE_MAX / 2 < (if b.data.capacity ≠ 0 then b.data.capacity else 1024) * 2 ^ j
                ∧ (if b.data.capacity ≠ 0 then b.data.capacity else 1024) * 2 ^ j < m)
          ∨ ∃ k, (b.reserve alloc m).2.data.capacity
                = (if b.data.capacity ≠ 0 then b.data.capacity else 1024) * 2 ^ k
              ∧ ∀ j, j < k → (if b.data.capacity ≠ 0 then b.data.capacity else 1024) * 2 ^ j < m)
      ∧ (b.data.capacity < m → m ≤ 2 ^ 63 →
          ∃ k, (b.reserve alloc m).2.data.capacity
                = (if b.data.capacity ≠ 0 then b.data.capacity else 1024) * 2 ^ k
              ∧ ∀ j, j < k → (if b.data.capacity ≠ 0 then b.data.capacity else 1024) * 2 ^ j < m) := by
  obtain ⟨_, _, h3, h4⟩ := Buffer.reserve_ok alloc b m hwf h
  have hchar := Buffer.grow_loop_char 64 (if b.data.capacity ≠ 0 then b.data.capacity else 1024) m
  refine ⟨h4, h3, ?_, ?_, ?_, ?_⟩
  · intro hle
    unfold Buffer.reserve
    simp [hle]
  · intro hlt hhalf
    rw [Buffer.reserve_capacity alloc b m hwf h hlt]
    by_cases hz : b.data.capacity = 0
    · omega
    · unfold Buffer.new_capacity
      simp only [ne_eq, hz, not_false_eq_true, if_true]
      rw [Buffer.grow_loop]
      have hn : ¬ (b.data.capacity > SIZE_MAX / 2) := by omega
      simp only [hlt, if_true, hn, if_false]
      have := Buffer.grow_loop_mono 63 (b.data.capacity * 2) m
      omega
  · intro hlt
    rw [Buffer.reserve_capacity alloc b m hwf h hlt]
    exact hchar
  · intro hlt hm
    rw [Buffer.reserve_capacity alloc b m hwf h hlt]
    rcases hchar with ⟨_, j, hj1, hj2⟩ | hk
    · exfalso
      have : SIZE_MAX / 2 = 2 ^ 63 - 1 := by decide
      omega
    · exact hk

theorem reserve_growth_witness :
    (Buffer.empty.reserve (fun _ => true) 3000).2.data.capacity = 4096
      ∧ Buffer.empty.data.capacity ≤ (Buffer.empty.reserve (fun _ => true) 3000).2.data.capacity
      ∧ 3000 ≤ (Buffer.empty.reserve (fun _ => true) 3000).2.data.capacity :=
  ⟨by decide,
    (reserve_growth (fun _ => true) Buffer.empty 3000 (by decide) (by decide)).1,
    (reserve_growth (fun _ => true) Buffer.empty 3000 (by decide) (by decide)).2.1⟩

/-! ## Facts about the write path -/

/-- The write loop either fails with `-1` or returns a count `n` between `total` and the length
of the data, having handed the bytes `[total, n)` to the transport, in order. -/
theorem write_loop_spec (data : List Byte) (script : List WriteRes) (written : List Byte)
    (total : Nat) :
    (write_loop data script written total).1 = -1
      ∨ ∃ n : Nat, (write_loop data script written total).1 = (n : Int) ∧ total ≤ n
          ∧ n ≤ max total data.length
          ∧ (write_loop data script written total).2.written
              = written ++ (data.drop total).take (n - total) := by
  induction script generalizing written total with
  | nil => exact Or.inr ⟨total, rfl, le_refl _, le_max_left _ _, by simp [write_loop]⟩
  | cons r s ih =>
    by_cases ht : total < data.length
    · cases r with
      | wrote k =>
        simp only [write_loop, ht, if_true]
        by_cases hk : min k (data.length - total) > 0
        · simp only [hk, if_true]
          rcases ih (written ++ (data.drop total).take (min k (data.length - total)))
              (total + min k (data.length - total)) with e | ⟨n, e1, e2, e3, e4⟩
          · exact Or.inl e
          · refine Or.inr ⟨n, e1, by omega, by omega, ?_⟩
            rw [e4, List.append_assoc]
            congr 1
            have hn : n - total = min k (data.length - total)
                + (n - (total + min k (data.length - total))) := by omega
            rw [hn, List.take_add, List.drop_drop]
        · simp only [hk, if_false]
          exact Or.inl trivial
      | wouldBlock =>
        simp only [write_loop, ht, if_true]
        exact Or.inr ⟨total, rfl, le_refl _, le_max_left _ _, by simp⟩
      | fail =>
        simp only [write_loop, ht, if_true]
        exact Or.inl trivial
    · simp only [write_loop, ht, if_false]
      exact Or.inr ⟨total, rfl, le_refl _, le_max_left _ _, by simp⟩

/-- On a transport that reports no error the write loop does not fail, and the transport it
leaves reports no error either. -/
theorem write_loop_clean (data : List Byte) (script : List WriteRes) (written : List Byte)
    (total : Nat) (h : ∀ r ∈ script, r.clean = true) :
    (write_loop data script written total).1 ≠ -1
      ∧ ∀ r ∈ (write_loop data script written total).2.script, r.clean = true := by
  induction script generalizing written total with
  | nil =>
    simp only [write_loop, List.not_mem_nil, false_implies, implies_true, and_true]
    omega
  | cons r s ih =>
    have hs : ∀ x ∈ s, x.clean = true := fun x hx => h x (List.mem_cons_of_mem _ hx)
    have hr : r.clean = true := h r (List.mem_cons_self _ _)
    by_cases ht : total < data.length
    · cases r with
      | wrote k =>
        simp only [WriteRes.clean, decide_eq_true_eq] at hr
        have hk : min k (data.length - total) > 0 := by
          simp only [gt_iff_lt, lt_min_iff]
          omega
        simp only [write_loop, ht, hk, if_true]
        exact ih _ _ hs
      | wouldBlock =>
        simp only [write_loop, ht, if_true]
        exact ⟨by omega, hs⟩
      | fail => simp [WriteRes.clean] at hr
    · simp only [write_loop, ht, if_false]
      exact ⟨by omega, h⟩

/-- Specification of `write_fully_nonblocking` when it does not fail. -/
theorem write_fully_spec (t : Transport) (data : List Byte)
    (h : ¬ (write_fully_nonblocking t data).1 < 0) :
    ∃ n : Nat, (write_fully_nonblocking t data).1 = (n : Int) ∧ n ≤ data.length
      ∧ (write_fully_nonblocking t data).2.written = t.written ++ data.take n := by
  unfold write_fully_nonblocking at h ⊢
  rcases write_loop_spec data t.script t.written 0 with e | ⟨n, e1, _, e3, e4⟩
  · rw [e] at h
    exact absurd (by decide) h
  · exact ⟨n, e1, by simpa using e3, by simpa using e4⟩

theorem write_fully_clean (t : Transport) (data : List Byte) (h : t.noError) :
    ¬ (write_fully_nonblocking t data).1 < 0 ∧ (write_fully_nonblocking t data).2.noError := by
  unfold write_fully_nonblocking
  obtain ⟨h1, h2⟩ := write_loop_clean data t.script t.written 0 h
  refine ⟨?_, h2⟩
  rcases write_loop_spec data t.script t.written 0 with e | ⟨n, e1, _⟩
  · exact absurd e h1
  · rw [e1]
    omega

theorem hdr_bytes_length (len : Nat) : (hdr_bytes len).length = 4 := rfl

theorem be32_hdr_bytes (len : Nat) (rest : List Byte) (h : len < 2 ^ 32) :
    be32 (hdr_bytes len ++ rest) = len := by
  simp only [be32, hdr_bytes, List.cons_append, List.getD_cons_zero, List.getD_cons_succ]
  omega

theorem Buffer.live_nil_of_length (b : Buffer) (h : b.length = 0) : b.live = [] := by
  simp [Buffer.live, h]

/-- Two successful appends in a row. -/
theorem Buffer.append_append_ok (alloc : Nat → Bool) (b : Buffer) (x y : List Byte)
    (hwf : b.wf) (h1 : (b.append alloc x).1 = 0)
    (h2 : ((b.append alloc x).2.append alloc y).1 = 0) :
    ((b.append alloc x).2.append alloc y).2.wf
      ∧ ((b.append alloc x).2.append alloc y).2.live = b.live ++ x ++ y := by
  obtain ⟨w1, l1, _⟩ := Buffer.append_ok alloc b x hwf h1
  obtain ⟨w2, l2, _⟩ := Buffer.append_ok alloc _ y w1 h2
  exact ⟨w2, by rw [l2, l1]⟩

/-- What a successful `send_framed_or_buffer` has done: the payload was within the limit, the
buffer is well formed, and the frame went, in order, to the tail of the buffer (buffer not
empty: transport untouched) or to the transport with the unwritten suffix in the buffer (buffer
empty). -/
theorem send_ok (alloc : Nat → Bool) (t : Transport) (out : Buffer) (P : List Byte)
    (hwf : out.wf) (h : (send_framed_or_buffer alloc t out P).1 = 0) :
    (send_framed_or_buffer alloc t out P).2.2.wf ∧ P.length ≤ MAX_MESSAGE_SIZE
      ∧ (out.length ≠ 0 → (send_framed_or_buffer alloc t out P).2.1 = t
          ∧ (send_framed_or_buffer alloc t out P).2.2.live = out.live ++ frame P)
      ∧ (out.length = 0 → ∃ w,
          (send_framed_or_buffer alloc t out P).2.1.written = t.written ++ w
            ∧ w ++ (send_framed_or_buffer alloc t out P).2.2.live = frame P) := by
  unfold send_framed_or_buffer at h ⊢
  dsimp only at h ⊢
  by_cases hlen : P.length > MAX_MESSAGE_SIZE
  · simp [hlen] at h
  simp only [hlen, if_false] at h ⊢
  refine ⟨?_, by omega, ?_, ?_⟩
  · -- well-formedness
    by_cases h0 : out.length = 0
    · simp only [h0, if_true] at h ⊢
      by_cases hw : (write_fully_nonblocking t (hdr_bytes P.length)).1 < 0
      · simp [hw] at h
      simp only [hw, if_false] at h ⊢
      by_cases hn : (write_fully_nonblocking t (hdr_bytes P.length)).1.toNat < 4
      · simp only [hn, if_true] at h ⊢
        by_cases ha : (out.append alloc (List.drop
            (write_fully_nonblocking t (hdr_bytes P.length)).1.toNat (hdr_bytes P.length))).1 = 0
        · simp only [ha, ne_eq, not_true_eq_false, if_false] at h ⊢
          by_cases ha2 : ((out.append alloc (List.drop
              (write_fully_nonblocking t (hdr_bytes P.length)).1.toNat
              (hdr_bytes P.length))).2.append alloc P).1 = 0
          · simp only [ha2, ne_eq, not_true_eq_false, if_false]
            exact (Buffer.append_append_ok alloc out _ P hwf ha ha2).1
          · simp [ha2] at h
        · simp [ha] at h
      · simp only [hn, if_false] at h ⊢
        by_cases hw2 : (write_fully_nonblocking (write_fully_nonblocking t
            (hdr_bytes P.length)).2 P).1 < 0
        · simp [hw2] at h
        simp only [hw2, if_false] at h ⊢
        by_cases hm : (write_fully_nonblocking (write_fully_nonblocking t
            (hdr_bytes P.length)).2 P).1.toNat < P.length
        · simp only [hm, if_true] at h ⊢
          by_cases ha : (out.append alloc (List.drop (write_fully_nonblocking
              (write_fully_nonblocking t (hdr_bytes P.length)).2 P).1.toNat P)).1 = 0
          · simp only [ha, ne_eq, not_true_eq_false, if_false]
            exact (Buffer.append_ok alloc out _ hwf ha).1
          · simp [ha] at h
        · simp only [hm, if_false]
          exact hwf
    · simp only [h0, if_false] at h ⊢
      by_cases ha : (out.append alloc (hdr_bytes P.length)).1 = 0
      · simp only [ha, ne_eq, not_true_eq_false, if_false] at h ⊢
        by_cases ha2 : ((out.append alloc (hdr_bytes P.length)).2.append alloc P).1 = 0
        · simp only [ha2, ne_eq, not_true_eq_false, if_false]
          exact (Buffer.append_append_ok alloc out _ P hwf ha ha2).1
        · simp [ha2] at h
      · simp [ha] at h
  · -- buffer not empty
    intro h0
    simp only [h0, if_false] at h ⊢
    by_cases ha : (out.append alloc (hdr_bytes P.length)).1 = 0
    · simp only [ha, ne_eq, not_true_eq_false, if_false] at h ⊢
      by_cases ha2 : ((out.append alloc (hdr_bytes P.length)).2.append alloc P).1 = 0
      · simp only [ha2, ne_eq, not_true_eq_false, if_false]
        refine ⟨trivial, ?_⟩
        rw [(Buffer.append_append_ok alloc out _ P hwf ha ha2).2, frame, List.append_assoc]
      · simp [ha2] at h
    · simp [ha] at h
  · -- buffer empty
    intro h0
    have hl := Buffer.live_nil_of_length out h0
    simp only [h0, if_true] at h ⊢
    by_cases hw : (write_fully_nonblocking t (hdr_bytes P.length)).1 < 0
    · simp [hw] at h
    simp only [hw, if_false] at h ⊢
    obtain ⟨n, e1, e2, e3⟩ := write_fully_spec t (hdr_bytes P.length) hw
    rw [hdr_bytes_length] at e2
    have et : (write_fully_nonblocking t (hdr_bytes P.length)).1.toNat = n := by
      rw [e1]
      exact Int.toNat_natCast n
    simp only [et] at h ⊢
    by_cases hn : n < 4
    · simp only [hn, if_true] at h ⊢
      by_cases ha : (out.append alloc (List.drop n (hdr_bytes P.length))).1 = 0
      · simp only [ha, ne_eq, not_true_eq_false, if_false] at h ⊢
        by_cases ha2 : ((out.append alloc (List.drop n (hdr_bytes P.length))).2.append
            alloc P).1 = 0
        · simp only [ha2, ne_eq, not_true_eq_false, if_false]
          refine ⟨List.take n (hdr_bytes P.length), e3, ?_⟩
          rw [(Buffer.append_append_ok alloc out _ P hwf ha ha2).2, hl, frame,
            List.nil_append, ← List.append_assoc, List.take_append_drop]
        · simp [ha2] at h
      · simp [ha] at h
    · simp only [hn, if_false] at h ⊢
      have hn4 : n = 4 := by omega
      subst hn4
      have e3' : (write_fully_nonblocking t (hdr_bytes P.length)).2.written
          = t.written ++ hdr_bytes P.length := by
        rw [e3]
        congr 1
      by_cases hw2 : (write_fully_nonblocking (write_fully_nonblocking t
          (hdr_bytes P.length)).2 P).1 < 0
      · simp [hw2] at h
      simp only [hw2, if_false] at h ⊢
      obtain ⟨m, f1, f2, f3⟩ := write_fully_spec _ P hw2
      have em : (write_fully_nonblocking (write_fully_nonblocking t
          (hdr_bytes P.length)).2 P).1.toNat = m := by
        rw [f1]
        exact Int.toNat_natCast m
      simp only [em] at h ⊢
      by_cases hm : m < P.length
      · simp only [hm, if_true] at h ⊢
        by_cases ha : (out.append alloc (List.drop m P)).1 = 0
        · simp only [ha, ne_eq, not_true_eq_false, if_false]
          refine ⟨hdr_bytes P.length ++ List.take m P, ?_, ?_⟩
          · rw [f3, e3', List.append_assoc]
          · rw [(Buffer.append_ok alloc out _ hwf ha).2.1, hl, frame, List.nil_append,
              List.append_assoc, List.take_append_drop]
        · simp [ha] at h
      · simp only [hm, if_false]
        refine ⟨hdr_bytes P.length ++ P, ?_, ?_⟩
        · rw [f3, e3', List.append_assoc, List.take_of_length_le (by omega)]
        · rw [hl, frame, List.append_nil]

/-- With memory available, a transport that reports no error and a payload within the limit,
`send_framed_or_buffer` returns 0 and leaves a transport that reports no error. -/
theorem send_succeeds (alloc : Nat → Bool) (t : Transport) (out : Buffer) (P : List Byte)
    (ha : ∀ n, alloc n = true) (ht : t.noError) (hP : P.length ≤ MAX_MESSAGE_SIZE) :
    (send_framed_or_buffer alloc t out P).1 = 0
      ∧ (send_framed_or_buffer alloc t out P).2.1.noError := by
  unfold send_framed_or_buffer
  dsimp only
  have hlen : ¬ P.length > MAX_MESSAGE_SIZE := by omega
  have app : ∀ (b : Buffer) (x : List Byte), ¬ (b.append alloc x).1 ≠ 0 := fun b x =>
    not_not.mpr (Buffer.append_succeeds alloc b x ha)
  obtain ⟨c1, c2⟩ := write_fully_clean t (hdr_bytes P.length) ht
  obtain ⟨c3, c4⟩ := write_fully_clean _ P c2
  simp only [hlen, if_false, c1, c3, app]
  split_ifs <;> first | exact ⟨rfl, ht⟩ | exact ⟨rfl, c2⟩ | exact ⟨rfl, c4⟩

/-! ## Facts about the decoder -/

theorem be32_take (l : List Byte) (n : Nat) (h : 4 ≤ n) : be32 (l.take n) = be32 l := by
  have h0 : 0 < n := by omega
  have h1 : 1 < n := by omega
  have h2 : 2 < n := by omega
  have h3 : 3 < n := by omega
  simp only [be32, List.getD_eq_getElem?_getD, List.getElem?_take_of_lt h0,
    List.getElem?_take_of_lt h1, List.getElem?_take_of_lt h2, List.getElem?_take_of_lt h3]

theorem be32_append (l r : List Byte) (h : 4 ≤ l.length) : be32 (l ++ r) = be32 l := by
  rw [← be32_take (l ++ r) l.length h, List.take_left]

theorem Buffer.live_length (b : Buffer) (hwf : b.wf) : b.live.length = b.length := by
  simp only [Buffer.live, List.length_take]
  exact Nat.min_eq_left hwf.1

/-- The decoder reads the live bytes only. -/
theorem has_complete_frame_eq (inbuf : Buffer) (hwf : inbuf.wf) :
    has_complete_frame inbuf
      = (frame_status inbuf.live,
          if frame_status inbuf.live = 1 then some (be32 inbuf.live) else none) := by
  have hl := Buffer.live_length inbuf hwf
  unfold has_complete_frame frame_status
  rw [hl]
  by_cases h4 : inbuf.length < 4
  · simp [h4]
  · have hb : be32 inbuf.live = be32 inbuf.data.elems := be32_take _ _ (by omega)
    simp only [h4, if_false, hb]
    split_ifs <;> simp_all

theorem get_frame_view_eq (inbuf : Buffer) (hwf : inbuf.wf) :
    get_frame_view inbuf
      = (frame_status inbuf.live,
          if frame_status inbuf.live = 1 then some (4, be32 inbuf.live) else none) := by
  unfold get_frame_view
  rw [has_complete_frame_eq inbuf hwf]
  by_cases h : frame_status inbuf.live = 1
  · simp [h]
  · simp [h]

theorem frame_status_one (bs : List Byte) :
    frame_status bs = 1 ↔ 4 ≤ bs.length ∧ be32 bs ≤ MAX_MESSAGE_SIZE ∧ 4 + be32 bs ≤ bs.length := by
  unfold frame_status
  split_ifs <;> simp <;> omega

/-- The bytes seen through the view of a complete frame are bytes `[4, 4 + L)` of the live
span. -/
theorem view_bytes_live (inbuf : Buffer) (L : Nat) (h : 4 + L ≤ inbuf.length) :
    view_bytes inbuf (4, L) = (inbuf.live.drop 4).take L := by
  simp only [view_bytes, Buffer.live, List.drop_take, List.take_take]
  congr 1
  omega

/-! ## The framing claims -/

/-- C7. Write path, header then payload: with memory available, a transport that reports no
error and a payload of at most 4096 bytes, `send_framed_or_buffer` returns 0; if the outbox held
bytes, the transport is left untouched and the new outbox is the old one followed by the header
and the payload; if the outbox was empty, the bytes handed to the transport followed by the new
outbox are the header followed by the payload, so the outbox holds the unwritten suffix. -/
theorem send_preserves_order (alloc : Nat → Bool) (t : Transport) (outbuf : Buffer)
    (P : List Byte) (ha : ∀ n, alloc n = true) (hwf : outbuf.wf) (ht : t.noError)
    (hP : P.length ≤ MAX_MESSAGE_SIZE) :
    (send_framed_or_buffer alloc t outbuf P).1 = 0
      ∧ (outbuf.length ≠ 0 →
          (send_framed_or_buffer alloc t outbuf P).2.1 = t
            ∧ (send_framed_or_buffer alloc t outbuf P).2.2.live
                = outbuf.live ++ hdr_bytes P.length ++ P)
      ∧ (outbuf.length = 0 →
          (send_framed_or_buffer alloc t outbuf P).2.1.written.take t.written.length = t.written
            ∧ (send_framed_or_buffer alloc t outbuf P).2.1.written.drop t.written.length
                ++ (send_framed_or_buffer alloc t outbuf P).2.2.live
              = hdr_bytes P.length ++ P) := by
  have h0 := (send_succeeds alloc t outbuf P ha ht hP).1
  obtain ⟨_, _, h1, h2⟩ := send_ok alloc t outbuf P hwf h0
  refine ⟨h0, ?_, ?_⟩
  · intro hne
    obtain ⟨e1, e2⟩ := h1 hne
    exact ⟨e1, by rw [e2, frame, List.append_assoc]⟩
  · intro he
    obtain ⟨w, e1, e2⟩ := h2 he
    rw [e1, List.take_left, List.drop_left, e2]
    exact ⟨rfl, rfl⟩

theorem send_preserves_order_witness :
    (send_framed_or_buffer (fun _ => true) ⟨[], [.wrote 2, .wouldBlock]⟩ Buffer.empty [7, 8, 9]).2.1.written
        = [0, 0]
      ∧ (send_framed_or_buffer (fun _ => true) ⟨[], [.wrote 2, .wouldBlock]⟩ Buffer.empty
          [7, 8, 9]).2.2.live = [0, 3, 7, 8, 9]
      ∧ (send_framed_or_buffer (fun _ => true) ⟨[], [.wrote 2, .wouldBlock]⟩ Buffer.empty
          [7, 8, 9]).1 = 0 :=
  ⟨by decide, by decide,
    (send_preserves_order (fun _ => true) ⟨[], [.wrote 2, .wouldBlock]⟩ Buffer.empty [7, 8, 9]
      (fun _ => rfl) (by decide) (by decide) (by decide)).1⟩

/-- C1. Round trip: with memory available, a payload `P` of at most 4096 bytes sent with
`send_framed_or_buffer` on an empty outbox over a transport that reports no error returns 0, and
the bytes accepted by the transport followed by the bytes left in the outbox, appended to an
empty inbox, make `get_frame_view` return 1 with length `|P|` and a payload view (at offset 4)
whose bytes are `P`. -/
theorem frame_round_trip (alloc : Nat → Bool) (t : Transport) (outbuf inbuf : Buffer)
    (P : List Byte) (ha : ∀ n, alloc n = true) (hwf : outbuf.wf) (ho : outbuf.length = 0)
    (hwfi : inbuf.wf) (hi : inbuf.length = 0) (ht : t.noError)
    (hP : P.length ≤ MAX_MESSAGE_SIZE) :
    (send_framed_or_buffer alloc t outbuf P).1 = 0
      ∧ (inbuf.append alloc
          ((send_framed_or_buffer alloc t outbuf P).2.1.written.drop t.written.length
            ++ (send_framed_or_buffer alloc t outbuf P).2.2.live)).1 = 0
      ∧ get_frame_view (inbuf.append alloc
          ((send_framed_or_buffer alloc t outbuf P).2.1.written.drop t.written.length
            ++ (send_framed_or_buffer alloc t outbuf P).2.2.live)).2 = (1, some (4, P.length))
      ∧ view_bytes (inbuf.append alloc
          ((send_framed_or_buffer alloc t outbuf P).2.1.written.drop t.written.length
            ++ (send_framed_or_buffer alloc t outbuf P).2.2.live)).2 (4, P.length) = P := by
  have h0 := (send_succeeds alloc t outbuf P ha ht hP).1
  obtain ⟨_, _, _, h2⟩ := send_ok alloc t outbuf P hwf h0
  obtain ⟨w, e1, e2⟩ := h2 ho
  have es : (send_framed_or_buffer alloc t outbuf P).2.1.written.drop t.written.length
      ++ (send_framed_or_buffer alloc t outbuf P).2.2.live = frame P := by
    rw [e1, List.drop_left, e2]
  rw [es]
  have hap := Buffer.append_succeeds alloc inbuf (frame P) ha
  obtain ⟨w1, l1, n1⟩ := Buffer.append_ok alloc inbuf (frame P) hwfi hap
  rw [Buffer.live_nil_of_length inbuf hi, List.nil_append] at l1
  have hlen : (frame P).length = 4 + P.length := by
    simp only [frame, List.length_append, hdr_bytes_length]
  have hbe : be32 (frame P) = P.length := by
    apply be32_hdr_bytes
    have : MAX_MESSAGE_SIZE = 4096 := rfl
    omega
  have hst : frame_status (frame P) = 1 := by
    rw [frame_status_one, hbe, hlen]
    omega
  refine ⟨h0, hap, ?_, ?_⟩
  · rw [get_frame_view_eq _ w1, l1, hst, hbe]
    rfl
  · rw [view_bytes_live _ _ (by rw [n1, hlen]; omega), l1, frame,
      List.drop_left' (hdr_bytes_length _), List.take_of_length_le (le_refl _)]

theorem frame_round_trip_witness :
    get_frame_view (Buffer.empty.append (fun _ => true)
      ((send_framed_or_buffer (fun _ => true) ⟨[], [.wrote 1, .wrote 9, .wrote 1]⟩ Buffer.empty
          [7, 8, 9]).2.1.written.drop 0
        ++ (send_framed_or_buffer (fun _ => true) ⟨[], [.wrote 1, .wrote 9, .wrote 1]⟩ Buffer.empty
          [7, 8, 9]).2.2.live)).2 = (1, some (4, 3)) :=
  (frame_round_trip (fun _ => true) ⟨[], [.wrote 1, .wrote 9, .wrote 1]⟩ Buffer.empty Buffer.empty
    [7, 8, 9] (fun _ => rfl) (by decide) (by decide) (by decide) (by decide) (by decide)
    (by decide)).2.2.1

/-- C2. Oversize rejection on both paths: a payload longer than 4096 bytes makes
`send_framed_or_buffer` return -1 with the transport (written bytes and pending write outcomes)
and the outbox exactly as they were; and an inbox holding at least 4 bytes whose first 4 bytes
read, big-endian, as more than 4096 makes `has_complete_frame` and `get_frame_view` return -2,
whatever follows. -/
theorem oversize_rejected :
    (∀ (alloc : Nat → Bool) (t : Transport) (outbuf : Buffer) (P : List Byte),
        P.length > MAX_MESSAGE_SIZE → send_framed_or_buffer alloc t outbuf P = (-1, t, outbuf))
      ∧ ∀ inbuf : Buffer, inbuf.wf → 4 ≤ inbuf.live.length →
          be32 (inbuf.live.take 4) > MAX_MESSAGE_SIZE →
          (has_complete_frame inbuf).1 = -2 ∧ (get_frame_view inbuf).1 = -2 := by
  constructor
  · intro alloc t outbuf P h
    unfold send_framed_or_buffer
    simp [h]
  · intro inbuf hwf h4 hL
    rw [be32_take _ _ (le_refl _)] at hL
    rw [has_complete_frame_eq inbuf hwf, get_frame_view_eq inbuf hwf]
    have : frame_status inbuf.live = -2 := by
      unfold frame_status
      have h1 : ¬ inbuf.live.length < 4 := by omega
      simp [h1, hL]
    exact ⟨this, this⟩

theorem oversize_rejected_witness :
    send_framed_or_buffer (fun _ => true) ⟨[], [.wrote 9]⟩ Buffer.empty (List.replicate 4097 0)
        = (-1, ⟨[], [.wrote 9]⟩, Buffer.empty)
      ∧ (has_complete_frame ⟨⟨[0, 0, 16, 1, 5, 5], 8⟩, 6⟩).1 = -2
      ∧ (get_frame_view ⟨⟨[0, 0, 16, 1, 5, 5], 8⟩, 6⟩).1 = -2 :=
  ⟨oversize_rejected.1 _ _ _ _ (by rw [List.length_replicate]; decide),
    oversize_rejected.2 ⟨⟨[0, 0, 16, 1, 5, 5], 8⟩, 6⟩ (by decide) (by decide) (by decide)⟩

/-- C3. Decode classification: with `L` the big-endian value of the first 4 live bytes,
`get_frame_view` (and `has_complete_frame`) returns 0, -2 or 1; 0 iff fewer than 4 bytes are
buffered, or `L ≤ 4096` and fewer than `4 + L` are; -2 iff at least 4 bytes are buffered and
`L > 4096`; 1 iff at least 4 bytes are buffered, `L ≤ 4096` and at least `4 + L` bytes are, in
which case the reported length is `L` and the view, at offset 4, shows bytes `[4, 4 + L)` of
the inbox. The decoder takes the buffer by value and returns no buffer: it cannot modify it. -/
theorem decode_classification (inbuf : Buffer) (hwf : inbuf.wf) :
    (has_complete_frame inbuf).1 = (get_frame_view inbuf).1
      ∧ ((get_frame_view inbuf).1 = 0 ∨ (get_frame_view inbuf).1 = -2
          ∨ (get_frame_view inbuf).1 = 1)
      ∧ ((get_frame_view inbuf).1 = 0 ↔
          inbuf.live.length < 4
            ∨ (be32 (inbuf.live.take 4) ≤ MAX_MESSAGE_SIZE
                ∧ inbuf.live.length < 4 + be32 (inbuf.live.take 4)))
      ∧ ((get_frame_view inbuf).1 = -2 ↔
          4 ≤ inbuf.live.length ∧ be32 (inbuf.live.take 4) > MAX_MESSAGE_SIZE)
      ∧ ((get_frame_view inbuf).1 = 1 ↔
          4 ≤ inbuf.live.length ∧ be32 (inbuf.live.take 4) ≤ MAX_MESSAGE_SIZE
            ∧ 4 + be32 (inbuf.live.take 4) ≤ inbuf.live.length)
      ∧ ((get_frame_view inbuf).1 = 1 →
          (has_complete_frame inbuf).2 = some (be32 (inbuf.live.take 4))
            ∧ (get_frame_view inbuf).2 = some (4, be32 (inbuf.live.take 4))
            ∧ view_bytes inbuf (4, be32 (inbuf.live.take 4))
                = (inbuf.live.drop 4).take (be32 (inbuf.live.take 4))) := by
  rw [be32_take _ _ (le_refl _), has_complete_frame_eq inbuf hwf, get_frame_view_eq inbuf hwf]
  have hl := Buffer.live_length inbuf hwf
  refine ⟨rfl, ?_, ?_, ?_, ?_, ?_⟩
  · simp only [frame_status]
    split_ifs <;> simp
  · simp only [frame_status]
    split_ifs <;> simp <;> omega
  · simp only [frame_status]
    split_ifs <;> simp <;> omega
  · exact frame_status_one _
  · intro h
    simp only at h
    have h1 := (frame_status_one _).mp h
    simp only [h, if_true, true_and]
    exact view_bytes_live _ _ (by omega)

theorem decode_classification_witness :
    (get_frame_view ⟨⟨[0, 0, 0, 2, 5, 6, 7], 8⟩, 7⟩).2 = some (4, 2)
      ∧ view_bytes ⟨⟨[0, 0, 0, 2, 5, 6, 7], 8⟩, 7⟩ (4, 2) = [5, 6]
      ∧ (has_complete_frame ⟨⟨[0, 0, 0, 2, 5, 6, 7], 8⟩, 7⟩).1
          = (get_frame_view ⟨⟨[0, 0, 0, 2, 5, 6, 7], 8⟩, 7⟩).1 :=
  ⟨by decide, by decide, (decode_classification ⟨⟨[0, 0, 0, 2, 5, 6, 7], 8⟩, 7⟩ (by decide)).1⟩

/-! ## Facts about the fan-out -/

theorem send_ret (alloc : Nat → Bool) (t : Transport) (out : Buffer) (P : List Byte) :
    (send_framed_or_buffer alloc t out P).1 = 0 ∨ (send_framed_or_buffer alloc t out P).1 = -1 := by
  unfold send_framed_or_buffer
  dsimp only
  split_ifs <;> simp

/-- The fan-out leaves alone the transport of every descriptor that is not a non-sender
connection of the registry. -/
theorem broadcast_tr_other (alloc : Nat → Bool) (sender_fd : Int) (data : List Byte)
    (w : World) (clients : List Client) (fd : Int)
    (h : ∀ c ∈ clients, c.fd = sender_fd ∨ c.fd ≠ fd) :
    (broadcast_to_others alloc sender_fd data w clients).1.tr fd = w.tr fd := by
  induction clients generalizing w with
  | nil => rfl
  | cons c rest ih =>
    have hr : ∀ c ∈ rest, c.fd = sender_fd ∨ c.fd ≠ fd :=
      fun x hx => h x (List.mem_cons_of_mem _ hx)
    simp only [broadcast_to_others]
    by_cases hs : c.fd = sender_fd
    · simp only [hs, if_true]
      exact ih w hr
    · have hne : fd ≠ c.fd := by
        rcases h c (List.mem_cons_self _ _) with h1 | h1
        · exact absurd h1 hs
        · exact fun e => h1 e.symm
      simp only [hs, if_false]
      split_ifs <;> rw [ih _ hr] <;>
        simp [epoll_update_events, Function.update_noteq hne]

/-- The registry after the fan-out, connection by connection. -/
theorem broadcast_clients (alloc : Nat → Bool) (sender_fd : Int) (data : List Byte)
    (w : World) (clients : List Client) (hnd : (clients.map Client.fd).Nodup) :
    (broadcast_to_others alloc sender_fd data w clients).2
      = clients.map (deliver alloc sender_fd data w) := by
  induction clients generalizing w with
  | nil => rfl
  | cons c rest ih =>
    rw [List.map_cons, List.nodup_cons] at hnd
    obtain ⟨hc, hnd'⟩ := hnd
    have hfd : ∀ x ∈ rest, x.fd ≠ c.fd := by
      intro x hx e
      exact hc (e ▸ List.mem_map_of_mem Client.fd hx)
    have key : ∀ w' : World, (∀ x ∈ rest, w'.tr x.fd = w.tr x.fd) →
        rest.map (deliver alloc sender_fd data w') = rest.map (deliver alloc sender_fd data w) := by
      intro w' hw'
      apply List.map_congr_left
      intro x hx
      simp only [deliver, hw' x hx]
    simp only [broadcast_to_others, List.map_cons]
    by_cases hs : c.fd = sender_fd
    · simp only [hs, if_true, deliver]
      rw [ih w hnd']
    · simp only [hs, if_false, deliver]
      split_ifs <;> rw [ih _ hnd'] <;> dsimp only <;>
        exact congrArg (List.cons _) (key _ (fun x hx => by
          simp [epoll_update_events, Function.update_noteq (hfd x hx)]))

/-- The transport of a non-sender connection after the fan-out is the one its own
`send_framed_or_buffer` call left. -/
theorem broadcast_tr_peer (alloc : Nat → Bool) (sender_fd : Int) (data : List Byte)
    (w : World) (clients : List Client) (hnd : (clients.map Client.fd).Nodup)
    (c : Client) (hc : c ∈ clients) (hs : c.fd ≠ sender_fd) :
    (broadcast_to_others alloc sender_fd data w clients).1.tr c.fd
      = (send_framed_or_buffer alloc (w.tr c.fd) c.outbuf data).2.1 := by
  induction clients generalizing w with
  | nil => simp at hc
  | cons d rest ih =>
    rw [List.map_cons, List.nodup_cons] at hnd
    obtain ⟨hd, hnd'⟩ := hnd
    have hfd : ∀ x ∈ rest, x.fd ≠ d.fd := by
      intro x hx e
      exact hd (e ▸ List.mem_map_of_mem Client.fd hx)
    rcases List.mem_cons.mp hc with rfl | hin
    · simp only [broadcast_to_others, hs, if_false]
      have hrest : ∀ x ∈ rest, x.fd = sender_fd ∨ x.fd ≠ c.fd := fun x hx => Or.inr (hfd x hx)
      split_ifs <;> rw [broadcast_tr_other _ _ _ _ _ _ hrest] <;>
        simp [epoll_update_events]
    · have hne : c.fd ≠ d.fd := hfd c hin
      simp only [broadcast_to_others]
      by_cases hds : d.fd = sender_fd
      · simp only [hds, if_true]
        exact ih w hnd' hin
      · simp only [hds, if_false]
        split_ifs <;> rw [ih _ hnd' hin] <;>
          simp [epoll_update_events, Function.update_noteq hne]

theorem broadcast_getElem (alloc : Nat → Bool) (sender_fd : Int) (data : List Byte)
    (w : World) (clients : List Client) (hnd : (clients.map Client.fd).Nodup)
    (i : Nat) (c c' : Client) (hc : clients[i]? = some c)
    (hc' : (broadcast_to_others alloc sender_fd data w clients).2[i]? = some c') :
    c' = deliver alloc sender_fd data w c := by
  rw [broadcast_clients alloc sender_fd data w clients hnd, List.getElem?_map, hc] at hc'
  exact (Option.some.inj hc').symm

/-- A transport that accepts nothing at the next call: a slow consumer. -/
theorem write_fully_slow (t : Transport) (data : List Byte)
    (h : t.script = [] ∨ ∃ s, t.script = WriteRes.wouldBlock :: s) :
    (write_fully_nonblocking t data).1 = 0
      ∧ (write_fully_nonblocking t data).2.written = t.written := by
  unfold write_fully_nonblocking
  rcases h with h | ⟨s, h⟩
  · rw [h]
    exact ⟨rfl, rfl⟩
  · rw [h]
    simp only [write_loop]
    split_ifs <;> exact ⟨rfl, rfl⟩

/-- Sending to a slow consumer is not a failure: nothing reaches the transport and the whole
frame is queued. -/
theorem send_slow (alloc : Nat → Bool) (t : Transport) (out : Buffer) (P : List Byte)
    (ha : ∀ n, alloc n = true) (hwf : out.wf) (hP : P.length ≤ MAX_MESSAGE_SIZE)
    (h : t.script = [] ∨ ∃ s, t.script = WriteRes.wouldBlock :: s) :
    (send_framed_or_buffer alloc t out P).1 = 0
      ∧ (send_framed_or_buffer alloc t out P).2.1.written = t.written
      ∧ (send_framed_or_buffer alloc t out P).2.2.live = out.live ++ frame P := by
  have hlen : ¬ P.length > MAX_MESSAGE_SIZE := by omega
  have app : ∀ (b : Buffer) (x : List Byte), ¬ (b.append alloc x).1 ≠ 0 := fun b x =>
    not_not.mpr (Buffer.append_succeeds alloc b x ha)
  obtain ⟨s1, s2⟩ := write_fully_slow t (hdr_bytes P.length) h
  have h0 : (send_framed_or_buffer alloc t out P).1 = 0 := by
    unfold send_framed_or_buffer
    dsimp only
    simp only [hlen, if_false, s1, app]
    split_ifs <;> first | rfl | (exfalso; omega)
  obtain ⟨_, _, h1, h2⟩ := send_ok alloc t out P hwf h0
  refine ⟨h0, ?_, ?_⟩
  · by_cases he : out.length = 0
    · unfold send_framed_or_buffer
      dsimp only
      simp only [hlen, if_false, s1, app, he, if_true]
      split_ifs <;> first | exact s2 | (exfalso; omega)
    · rw [(h1 he).1]
  · by_cases he : out.length = 0
    · unfold send_framed_or_buffer
      dsimp only
      simp only [hlen, if_false, s1, app, he, if_true]
      have hz : (0 : Int).toNat < 4 := by decide
      have hlt : ¬ (0 : Int) < 0 := by decide
      simp only [hz, hlt, if_true, if_false]
      rw [(Buffer.append_append_ok alloc out _ P hwf (Buffer.append_succeeds _ _ _ ha)
        (Buffer.append_succeeds _ _ _ ha)).2, frame]
      simp
    · exact (h1 he).2

/-! ## The fan-out claims -/

/-- C5. Fan-out excludes the origin: in a registry with pairwise distinct descriptors, with
memory available, no transport reporting an error and a payload `P` of at most 4096 bytes,
`broadcast_to_others` keeps the registry's length and order, leaves the sender's connection
record and transport exactly as they were, and extends the outgoing stream (bytes accepted by
the transport, then the outbound buffer) of every other connection by the 4-byte big-endian
length of `P` followed by `P`, without closing it. -/
theorem broadcast_excludes_origin (alloc : Nat → Bool) (w : World) (clients : List Client)
    (S : Client) (P : List Byte) (ha : ∀ n, alloc n = true)
    (hnd : (clients.map Client.fd).Nodup) (hS : S ∈ clients)
    (hwf : ∀ c ∈ clients, c.outbuf.wf) (ht : ∀ c ∈ clients, (w.tr c.fd).noError)
    (hP : P.length ≤ MAX_MESSAGE_SIZE) :
    (broadcast_to_others alloc S.fd P w clients).2.length = clients.length
      ∧ (broadcast_to_others alloc S.fd P w clients).1.tr S.fd = w.tr S.fd
      ∧ ∀ (i : Nat) (c c' : Client), clients[i]? = some c →
          (broadcast_to_others alloc S.fd P w clients).2[i]? = some c' →
          (c = S → c' = S)
            ∧ (c ≠ S → c'.fd = c.fd ∧ c'.inbuf = c.inbuf ∧ c'.closed = c.closed
                ∧ out_stream (broadcast_to_others alloc S.fd P w clients).1 c'
                    = out_stream w c ++ hdr_bytes P.length ++ P) := by
  refine ⟨?_, ?_, ?_⟩
  · rw [broadcast_clients alloc S.fd P w clients hnd, List.length_map]
  · apply broadcast_tr_other
    intro c hc
    by_cases h : c.fd = S.fd
    · exact Or.inl h
    · exact Or.inr h
  · intro i c c' hc hc'
    have hmem : c ∈ clients := List.getElem?_mem hc
    have e := broadcast_getElem alloc S.fd P w clients hnd i c c' hc hc'
    constructor
    · intro hcS
      rw [e, hcS]
      simp [deliver]
    · intro hne
      have hfd : c.fd ≠ S.fd := fun h =>
        hne (List.inj_on_of_nodup_map hnd hmem hS h)
      have h0 := (send_succeeds alloc (w.tr c.fd) c.outbuf P ha (ht c hmem) hP).1
      obtain ⟨_, _, h1, h2⟩ := send_ok alloc (w.tr c.fd) c.outbuf P (hwf c hmem) h0
      have hn : ¬ (send_framed_or_buffer alloc (w.tr c.fd) c.outbuf P).1 < 0 := by
        rw [h0]
        decide
      have e' : c' = { c with outbuf := (send_framed_or_buffer alloc (w.tr c.fd) c.outbuf P).2.2 } := by
        rw [e]
        simp only [deliver, hfd, if_false, hn]
      refine ⟨by rw [e'], by rw [e'], by rw [e'], ?_⟩
      have hfd' : c'.fd = c.fd := by rw [e']
      simp only [out_stream]
      rw [hfd', broadcast_tr_peer alloc S.fd P w clients hnd c hmem hfd, e']
      simp only
      by_cases he : c.outbuf.length = 0
      · obtain ⟨x, e1, e2⟩ := h2 he
        rw [e1, Buffer.live_nil_of_length _ he, List.append_assoc, e2, frame]
        simp
      · obtain ⟨e1, e2⟩ := h1 he
        rw [e1, e2, frame]
        simp

/-- C6. Failure isolation in the fan-out: in a registry with pairwise distinct descriptors,
whatever the transports do and wherever a failing or slow peer stands, after
`broadcast_to_others` a connection is closed iff it was closed before or it is a non-sender
peer whose `send_framed_or_buffer` call failed; every non-sender peer whose call did not fail
has the whole frame (header, then payload) added to its outgoing stream; and a peer whose
transport accepts zero bytes is, with memory available and a payload within the limit, not a
failure: it stays open with the whole frame queued in its outbound buffer. -/
theorem broadcast_isolates_failures (alloc : Nat → Bool) (w : World) (clients : List Client)
    (sender_fd : Int) (P : List Byte) (hnd : (clients.map Client.fd).Nodup)
    (hwf : ∀ c ∈ clients, c.outbuf.wf) :
    (broadcast_to_others alloc sender_fd P w clients).2.length = clients.length
      ∧ ∀ (i : Nat) (c c' : Client), clients[i]? = some c →
          (broadcast_to_others alloc sender_fd P w clients).2[i]? = some c' →
          c'.fd = c.fd ∧ c'.inbuf = c.inbuf
            ∧ (c'.closed = true ↔ c.closed = true
                ∨ (c.fd ≠ sender_fd
                    ∧ (send_framed_or_buffer alloc (w.tr c.fd) c.outbuf P).1 < 0))
            ∧ (c.fd ≠ sender_fd → ¬ (send_framed_or_buffer alloc (w.tr c.fd) c.outbuf P).1 < 0 →
                out_stream (broadcast_to_others alloc sender_fd P w clients).1 c'
                  = out_stream w c ++ hdr_bytes P.length ++ P)
            ∧ (c.fd ≠ sender_fd → (∀ n, alloc n = true) → P.length ≤ MAX_MESSAGE_SIZE →
                ((w.tr c.fd).script = [] ∨ ∃ s, (w.tr c.fd).script = WriteRes.wouldBlock :: s) →
                c'.closed = c.closed
                  ∧ ((broadcast_to_others alloc sender_fd P w clients).1.tr c.fd).written
                      = (w.tr c.fd).written
                  ∧ c'.outbuf.live = c.outbuf.live ++ hdr_bytes P.length ++ P) := by
  refine ⟨?_, ?_⟩
  · rw [broadcast_clients alloc sender_fd P w clients hnd, List.length_map]
  · intro i c c' hc hc'
    have hmem : c ∈ clients := List.getElem?_mem hc
    have e := broadcast_getElem alloc sender_fd P w clients hnd i c c' hc hc'
    by_cases hfd : c.fd = sender_fd
    · have e' : c' = c := by
        rw [e]
        simp [deliver, hfd]
      rw [e']
      simp [hfd]
    · by_cases hn : (send_framed_or_buffer alloc (w.tr c.fd) c.outbuf P).1 < 0
      · have e' : c' = { c with outbuf := (send_framed_or_buffer alloc (w.tr c.fd) c.outbuf P).2.2,
                                closed := true } := by
          rw [e]
          simp only [deliver, hfd, if_false, hn, if_true]
        refine ⟨by rw [e'], by rw [e'], ?_, fun _ h => absurd hn h, ?_⟩
        · rw [e']
          simp [hfd, hn]
        · intro _ ha hP hslow
          have := (send_slow alloc (w.tr c.fd) c.outbuf P ha (hwf c hmem) hP hslow).1
          rw [this] at hn
          exact absurd hn (by decide)
      · have e' : c' = { c with outbuf := (send_framed_or_buffer alloc (w.tr c.fd) c.outbuf P).2.2 } := by
          rw [e]
          simp only [deliver, hfd, if_false, hn]
        have h0 : (send_framed_or_buffer alloc (w.tr c.fd) c.outbuf P).1 = 0 := by
          rcases send_ret alloc (w.tr c.fd) c.outbuf P with h | h
          · exact h
          · rw [h] at hn
            exact absurd (by decide) hn
        obtain ⟨_, _, h1, h2⟩ := send_ok alloc (w.tr c.fd) c.outbuf P (hwf c hmem) h0
        have hfd' : c'.fd = c.fd := by rw [e']
        refine ⟨hfd', by rw [e'], ?_, ?_, ?_⟩
        · rw [e']
          simp [hfd, hn]
        · intro _ _
          simp only [out_stream]
          rw [hfd', broadcast_tr_peer alloc sender_fd P w clients hnd c hmem hfd, e']
          simp only
          by_cases he : c.outbuf.length = 0
          · obtain ⟨x, e1, e2⟩ := h2 he
            rw [e1, Buffer.live_nil_of_length _ he, List.append_assoc, e2, frame]
            simp
          · obtain ⟨e1, e2⟩ := h1 he
            rw [e1, e2, frame]
            simp
        · intro _ ha hP hslow
          obtain ⟨_, s2, s3⟩ := send_slow alloc (w.tr c.fd) c.outbuf P ha (hwf c hmem) hP hslow
          refine ⟨by rw [e'], ?_, ?_⟩
          · rw [broadcast_tr_peer alloc sender_fd P w clients hnd c hmem hfd, s2]
          · rw [e']
            simp only
            rw [s3, frame, List.append_assoc]

theorem broadcast_excludes_origin_witness :
    (broadcast_to_others (fun _ => true) 3 [7, 8] quiet_world example_registry).2.map
        (fun c => out_stream
          (broadcast_to_others (fun _ => true) 3 [7, 8] quiet_world example_registry).1 c)
        = [[], [0, 0, 0, 2, 7, 8], [0, 0, 0, 2, 7, 8], [0, 0, 0, 2, 7, 8]]
      ∧ (broadcast_to_others (fun _ => true) 3 [7, 8] quiet_world example_registry).1.tr 3
          = quiet_world.tr 3
      ∧ out_stream (broadcast_to_others (fun _ => true) 3 [7, 8] quiet_world example_registry).1
          ⟨4, Buffer.empty, ⟨⟨[0, 2, 7, 8], 1024⟩, 4⟩, false⟩
          = out_stream quiet_world ⟨4, Buffer.empty, Buffer.empty, false⟩ ++ hdr_bytes 2 ++ [7, 8] :=
  ⟨by decide,
    (broadcast_excludes_origin (fun _ => true) quiet_world example_registry
      ⟨3, Buffer.empty, Buffer.empty, false⟩ [7, 8] (fun _ => rfl) (by decide) (by decide)
      (by decide) (by decide) (by decide)).2.1,
    (((broadcast_excludes_origin (fun _ => true) quiet_world example_registry
      ⟨3, Buffer.empty, Buffer.empty, false⟩ [7, 8] (fun _ => rfl) (by decide) (by decide)
      (by decide) (by decide) (by decide)).2.2 1 ⟨4, Buffer.empty, Buffer.empty, false⟩
      ⟨4, Buffer.empty, ⟨⟨[0, 2, 7, 8], 1024⟩, 4⟩, false⟩ (by decide) (by decide)).2
      (by decide)).2.2.2⟩

theorem broadcast_isolates_failures_witness :
    (broadcast_to_others (fun _ => true) 3 [7, 8] rough_world example_registry).2.map
        Client.closed = [false, true, false, false]
      ∧ (broadcast_to_others (fun _ => true) 3 [7, 8] rough_world example_registry).2.map
        (fun c => out_stream
          (broadcast_to_others (fun _ => true) 3 [7, 8] rough_world example_registry).1 c)
        = [[], [], [0, 0, 0, 2, 7, 8], [0, 0, 0, 2, 7, 8]]
      ∧ (broadcast_to_others (fun _ => true) 3 [7, 8] rough_world example_registry).2.length
          = example_registry.length
      ∧ (Client.mk 5 Buffer.empty ⟨⟨[0, 0, 0, 2, 7, 8], 1024⟩, 6⟩ false).outbuf.live
          = (Client.mk 5 Buffer.empty Buffer.empty false).outbuf.live ++ hdr_bytes 2 ++ [7, 8] :=
  ⟨by decide, by decide,
    (broadcast_isolates_failures (fun _ => true) rough_world example_registry 3 [7, 8]
      (by decide) (by decide)).1,
    (((broadcast_isolates_failures (fun _ => true) rough_world example_registry 3 [7, 8]
      (by decide) (by decide)).2 2 ⟨5, Buffer.empty, Buffer.empty, false⟩
      ⟨5, Buffer.empty, ⟨⟨[0, 0, 0, 2, 7, 8], 1024⟩, 6⟩, false⟩ (by decide) (by decide)).2.2.2.2
      (by decide) (fun _ => rfl) (by decide) (Or.inl rfl)).2.2⟩

/-! ## Facts about the drain loop -/

theorem frame_status_append (a c : List Byte) (h : frame_status a = 1) :
    frame_status (a ++ c) = 1 ∧ be32 (a ++ c) = be32 a := by
  obtain ⟨h1, h2, h3⟩ := (frame_status_one a).mp h
  have hb := be32_append a c h1
  refine ⟨?_, hb⟩
  rw [frame_status_one, hb, List.length_append]
  omega

theorem split_frames_succ (f : Nat) (bs : List Byte) :
    split_frames (f + 1) bs
      = if frame_status bs = 1 then
          ((bs.drop 4).take (be32 bs) :: (split_frames f (bs.drop (4 + be32 bs))).1,
            (split_frames f (bs.drop (4 + be32 bs))).2)
        else ([], frame_status bs, bs) := rfl

/-- With more fuel than bytes, the result of the byte-level drain does not depend on the fuel. -/
theorem split_frames_fuel (f1 f2 : Nat) (bs : List Byte) (h1 : bs.length < f1)
    (h2 : bs.length < f2) : split_frames f1 bs = split_frames f2 bs := by
  induction f1 generalizing f2 bs with
  | zero => omega
  | succ f ih =>
    cases f2 with
    | zero => omega
    | succ g =>
      simp only [split_frames]
      by_cases hs : frame_status bs = 1
      · obtain ⟨e1, _, _⟩ := (frame_status_one bs).mp hs
        simp only [hs, if_true]
        rw [ih g (bs.drop (4 + be32 bs)) (by simp only [List.length_drop]; omega)
          (by simp only [List.length_drop]; omega)]
      · simp only [hs, if_false]

/-- With more fuel than bytes, the byte-level drain stops on its own exit test: the status it
reports is the status of what it leaves, and is not "complete". -/
theorem split_frames_done (f : Nat) (bs : List Byte) (h : bs.length < f) :
    (split_frames f bs).2.1 = frame_status (split_frames f bs).2.2
      ∧ (split_frames f bs).2.1 ≠ 1 := by
  induction f generalizing bs with
  | zero => omega
  | succ f ih =>
    simp only [split_frames]
    by_cases hs : frame_status bs = 1
    · obtain ⟨e1, _, _⟩ := (frame_status_one bs).mp hs
      simp only [hs, if_true]
      exact ih (bs.drop (4 + be32 bs)) (by simp only [List.length_drop]; omega)
    · simp only [hs, if_false]
      exact ⟨trivial, hs⟩

/-- Draining `a ++ c` is draining `a`, then draining what `a` left followed by `c`. -/
theorem split_frames_append (f : Nat) (a c : List Byte) (h : a.length < f) :
    split_frames (f + c.length) (a ++ c)
      = ((split_frames f a).1
          ++ (split_frames ((split_frames f a).2.2.length + c.length + 1)
                ((split_frames f a).2.2 ++ c)).1,
         (split_frames ((split_frames f a).2.2.length + c.length + 1)
            ((split_frames f a).2.2 ++ c)).2) := by
  induction f generalizing a with
  | zero => omega
  | succ f ih =>
    by_cases hs : frame_status a = 1
    · obtain ⟨e1, e2, e3⟩ := (frame_status_one a).mp hs
      obtain ⟨hs', hb⟩ := frame_status_append a c hs
      have hf : f + 1 + c.length = (f + c.length) + 1 := by omega
      rw [hf, split_frames_succ (f + c.length) (a ++ c), split_frames_succ f a]
      simp only [hs, hs', hb, if_true]
      have hd : List.drop (4 + be32 a) (a ++ c) = List.drop (4 + be32 a) a ++ c :=
        List.drop_append_of_le_length e3
      have ht : List.take (be32 a) (List.drop 4 (a ++ c)) = List.take (be32 a) (List.drop 4 a) := by
        rw [List.drop_append_of_le_length e1, List.take_append_of_le_length]
        simp only [List.length_drop]
        omega
      rw [hd, ht, ih (List.drop (4 + be32 a) a) (by simp only [List.length_drop]; omega)]
      rfl
    · have e : split_frames (f + 1) a = ([], frame_status a, a) := by
        simp only [split_frames, hs, if_false]
      rw [e]
      simp only [List.nil_append]
      exact split_frames_fuel _ _ _ (by simp only [List.length_append]; omega)
        (by simp only [List.length_append]; omega)

/-- The drain loop on a well-formed buffer is the byte-level drain of its live bytes, each
payload being handed to the handler in order. -/
theorem drain_loop_spec {σ : Type} (handle : σ → List Byte → σ) (fuel : Nat) (b : Buffer) (s : σ)
    (hwf : b.wf) :
    (drain_loop handle fuel b s).1 = (split_frames fuel b.live).2.1
      ∧ (drain_loop handle fuel b s).2.1.wf
      ∧ (drain_loop handle fuel b s).2.1.live = (split_frames fuel b.live).2.2
      ∧ (drain_loop handle fuel b s).2.2 = (split_frames fuel b.live).1.foldl handle s := by
  induction fuel generalizing b s with
  | zero =>
    simp only [drain_loop, split_frames, has_complete_frame_eq b hwf, List.foldl_nil]
    exact ⟨trivial, hwf, trivial, trivial⟩
  | succ f ih =>
    have hl := Buffer.live_length b hwf
    simp only [drain_loop, split_frames, has_complete_frame_eq b hwf, get_frame_view_eq b hwf]
    by_cases hs : frame_status b.live = 1
    · obtain ⟨e1, e2, e3⟩ := (frame_status_one b.live).mp hs
      have hne : ¬ ((1 : Int) = -2) := by decide
      simp only [hs, if_true, hne, if_false, ne_eq, not_true_eq_false]
      obtain ⟨cw, cl, _⟩ := Buffer.consume_ok b (4 + be32 b.live) hwf
      obtain ⟨i1, i2, i3, i4⟩ := ih (b.consume (4 + be32 b.live))
        (handle s (view_bytes b (4, be32 b.live))) cw
      rw [cl] at i1 i3 i4
      exact ⟨i1, i2, i3, by rw [i4, List.foldl_cons, view_bytes_live b _ (by omega)]⟩
    · simp only [hs, if_false]
      by_cases h2 : frame_status b.live = -2
      · simp only [h2, if_true, List.foldl_nil]
        exact ⟨trivial, hwf, trivial, trivial⟩
      · simp only [h2, if_false, ne_eq, hs, not_false_eq_true, if_true, List.foldl_nil]
        exact ⟨trivial, hwf, trivial, trivial⟩

theorem foldl_snoc (acc l : List (List Byte)) :
    List.foldl (fun (a : List (List Byte)) p => a ++ [p]) acc l = acc ++ l := by
  induction l generalizing acc with
  | nil => simp
  | cons x xs ih => rw [List.foldl_cons, ih]; simp

/-- The function `drain` on a well-formed buffer, read off the live bytes. -/
theorem drain_spec (b : Buffer) (hwf : b.wf) :
    (drain b).1 = (split_frames (b.live.length + 1) b.live).2.1
      ∧ (drain b).2.1.wf
      ∧ (drain b).2.1.live = (split_frames (b.live.length + 1) b.live).2.2
      ∧ (drain b).2.2 = (split_frames (b.live.length + 1) b.live).1 := by
  rw [Buffer.live_length b hwf]
  obtain ⟨h1, h2, h3, h4⟩ :=
    drain_loop_spec (fun (a : List (List Byte)) p => a ++ [p]) (b.length + 1) b [] hwf
  refine ⟨h1, h2, h3, ?_⟩
  unfold drain
  rw [h4, foldl_snoc, List.nil_append]

/-- Feeding chunks one at a time keeps the reactor's state equal to the byte-level drain of
everything received so far. -/
theorem feed_chunks (alloc : Nat → Bool) (ha : ∀ n, alloc n = true) (chunks : List (List Byte))
    (pre : List Byte) (st : Int × Buffer × List (List Byte)) (hwf : st.2.1.wf)
    (h1 : st.1 = (split_frames (pre.length + 1) pre).2.1)
    (h2 : st.2.1.live = (split_frames (pre.length + 1) pre).2.2)
    (h3 : st.2.2 = (split_frames (pre.length + 1) pre).1) :
    (chunks.foldl (feed alloc) st).2.1.wf
      ∧ (chunks.foldl (feed alloc) st).1
          = (split_frames ((pre ++ chunks.flatten).length + 1) (pre ++ chunks.flatten)).2.1
      ∧ (chunks.foldl (feed alloc) st).2.1.live
          = (split_frames ((pre ++ chunks.flatten).length + 1) (pre ++ chunks.flatten)).2.2
      ∧ (chunks.foldl (feed alloc) st).2.2
          = (split_frames ((pre ++ chunks.flatten).length + 1) (pre ++ chunks.flatten)).1 := by
  induction chunks generalizing pre st with
  | nil =>
    simp only [List.foldl_nil, List.flatten_nil, List.append_nil]
    exact ⟨hwf, h1, h2, h3⟩
  | cons c rest ih =>
    rw [List.foldl_cons, List.flatten_cons, ← List.append_assoc]
    have hap := Buffer.append_succeeds alloc st.2.1 c ha
    obtain ⟨aw, al, _⟩ := Buffer.append_ok alloc st.2.1 c hwf hap
    obtain ⟨d1, d2, d3, d4⟩ := drain_spec _ aw
    rw [al, h2] at d1 d3 d4
    have key := split_frames_append (pre.length + 1) pre c (by omega)
    have hf : (pre ++ c).length + 1 = pre.length + 1 + c.length := by
      simp only [List.length_append]
      omega
    have hg : ((split_frames (pre.length + 1) pre).2.2 ++ c).length + 1
        = (split_frames (pre.length + 1) pre).2.2.length + c.length + 1 := by
      simp only [List.length_append]
    rw [hg] at d1 d3 d4
    apply ih (pre ++ c) (feed alloc st c)
    · exact d2
    · rw [hf, key]
      exact d1
    · rw [hf, key]
      exact d3
    · rw [hf, key]
      show st.2.2 ++ _ = _
      rw [h3, d4]

theorem frame_status_values (bs : List Byte) :
    frame_status bs = 0 ∨ frame_status bs = -2 ∨ frame_status bs = 1 := by
  unfold frame_status
  split_ifs <;> simp

/-- C4. Chunking independence: with memory available, for every byte string `D` and every way
of cutting `D` into consecutive chunks, appending the chunks one at a time to an empty inbox
and running the drain loop after each append gives the same payloads in the same order, the
same final outcome, which is 0 (incomplete) or -2 (malformed), and the same leftover bytes as
appending `D` at once and draining once. -/
theorem chunking_independence (alloc : Nat → Bool) (ha : ∀ n, alloc n = true) (inbox : Buffer)
    (hwf : inbox.wf) (he : inbox.length = 0) (D : List Byte) (chunks : List (List Byte))
    (hD : chunks.flatten = D) :
    (chunks.foldl (feed alloc) (0, inbox, [])).2.2 = (feed alloc (0, inbox, []) D).2.2
      ∧ (chunks.foldl (feed alloc) (0, inbox, [])).1 = (feed alloc (0, inbox, []) D).1
      ∧ (chunks.foldl (feed alloc) (0, inbox, [])).2.1.live
          = (feed alloc (0, inbox, []) D).2.1.live
      ∧ ((feed alloc (0, inbox, []) D).1 = 0 ∨ (feed alloc (0, inbox, []) D).1 = -2) := by
  have hl : inbox.live = [] := Buffer.live_nil_of_length inbox he
  have i1 : ((0 : Int), inbox, ([] : List (List Byte))).1
      = (split_frames (([] : List Byte).length + 1) []).2.1 := rfl
  have i2 : ((0 : Int), inbox, ([] : List (List Byte))).2.1.live
      = (split_frames (([] : List Byte).length + 1) []).2.2 := by
    show inbox.live = _
    rw [hl]
    rfl
  have i3 : ((0 : Int), inbox, ([] : List (List Byte))).2.2
      = (split_frames (([] : List Byte).length + 1) []).1 := rfl
  obtain ⟨_, a1, a2, a3⟩ := feed_chunks alloc ha chunks [] (0, inbox, []) hwf i1 i2 i3
  obtain ⟨_, b1, b2, b3⟩ := feed_chunks alloc ha [D] [] (0, inbox, []) hwf i1 i2 i3
  rw [hD] at a1 a2 a3
  simp only [List.flatten_cons, List.flatten_nil, List.append_nil, List.foldl_cons,
    List.foldl_nil] at b1 b2 b3
  refine ⟨by rw [a3, b3], by rw [a1, b1], by rw [a2, b2], ?_⟩
  rw [b1]
  obtain ⟨d1, d2⟩ := split_frames_done (([] ++ D).length + 1) ([] ++ D) (by omega)
  rcases frame_status_values (split_frames (([] ++ D).length + 1) ([] ++ D)).2.2 with h | h | h
  · exact Or.inl (d1.trans h)
  · exact Or.inr (d1.trans h)
  · exact absurd (d1.trans h) d2

theorem chunking_independence_witness :
    ([[0, 0, 0], [2, 5], [6, 0, 0, 0, 1, 9, 0], [0]].foldl (feed (fun _ => true))
        (0, Buffer.empty, [])).2.2 = [[5, 6], [9]]
      ∧ ([[0, 0, 0], [2, 5], [6, 0, 0, 0, 1, 9, 0], [0]].foldl (feed (fun _ => true))
        (0, Buffer.empty, [])).2.2
          = (feed (fun _ => true) (0, Buffer.empty, [])
              [0, 0, 0, 2, 5, 6, 0, 0, 0, 1, 9, 0, 0]).2.2 :=
  ⟨by decide,
    (chunking_independence (fun _ => true) (fun _ => rfl) Buffer.empty (by decide) (by decide)
      [0, 0, 0, 2, 5, 6, 0, 0, 0, 1, 9, 0, 0] [[0, 0, 0], [2, 5], [6, 0, 0, 0, 1, 9, 0], [0]]
      (by decide)).1⟩

/-! ## The discovery exchange -/

theorem digit_char_val (n : Nat) : (digit_char n).val = 48 + n % 10 := by
  simp only [digit_char]
  omega

theorem isdigit_digit_char (n : Nat) : isdigit (digit_char n) = true := by
  simp only [isdigit, digit_char_val, Bool.and_eq_true, decide_eq_true_eq]
  omega

theorem fmt_digits_length (f n : Nat) : (fmt_digits f n).length ≤ f := by
  induction f generalizing n with
  | zero => simp [fmt_digits]
  | succ f ih =>
    simp only [fmt_digits]
    split_ifs
    · simp
    · have := ih (n / 10)
      simp only [List.length_append, List.length_singleton]
      omega

/-- The formatted number starts with a digit. -/
theorem fmt_digits_head (f n : Nat) :
    ∃ d tl, fmt_digits (f + 1) n = d :: tl ∧ isdigit d = true := by
  induction f generalizing n with
  | zero =>
    refine ⟨digit_char n, [], ?_, isdigit_digit_char n⟩
    simp only [fmt_digits]
    split_ifs <;> rfl
  | succ f ih =>
    by_cases h : n < 10
    · exact ⟨digit_char n, [], by simp only [fmt_digits, h, if_true], isdigit_digit_char n⟩
    · obtain ⟨d, tl, e, hd⟩ := ih (n / 10)
      refine ⟨d, tl ++ [digit_char n], ?_, hd⟩
      rw [fmt_digits]
      simp only [h, if_false]
      rw [e]
      rfl

/-- Reading back the digits of `n`: the scan of the formatted number gives `n` and goes on
with what follows. -/
theorem scan_fmt_digits (f n : Nat) (rest : List Byte) (h : n < 10 ^ f) :
    scan_digits (fmt_digits f n ++ rest) 0 = scan_digits rest n := by
  induction f generalizing n rest with
  | zero =>
    have : n = 0 := by simpa using h
    subst this
    rfl
  | succ f ih =>
    simp only [fmt_digits]
    by_cases h10 : n < 10
    · simp only [h10, if_true, List.singleton_append, scan_digits, isdigit_digit_char,
        digit_char_val]
      congr 1
      omega
    · simp only [h10, if_false, List.append_assoc, List.singleton_append]
      rw [ih (n / 10) _ (by rw [pow_succ] at h; omega)]
      simp only [scan_digits, isdigit_digit_char, if_true, digit_char_val]
      congr 1
      omega

/-- The formatted number is the decimal representation: the base-10 digits of Mathlib, most
significant first, as ASCII. -/
theorem fmt_digits_eq_digits (f n : Nat) (h0 : 0 < n) (h : n < 10 ^ f) :
    fmt_digits f n = ((Nat.digits 10 n).reverse).map digit_char := by
  induction f generalizing n with
  | zero =>
    have : n = 0 := by simpa using h
    omega
  | succ f ih =>
    simp only [fmt_digits]
    by_cases h10 : n < 10
    · simp only [h10, if_true]
      rw [Nat.digits_of_lt 10 n (by omega) h10]
      rfl
    · simp only [h10, if_false]
      rw [Nat.digits_def' (by decide) h0, List.reverse_cons, List.map_append,
        ih (n / 10) (by omega) (by rw [pow_succ] at h; omega)]
      congr 1
      simp only [List.map_cons, List.map_nil, List.cons.injEq, and_true]
      apply Fin.ext
      rw [digit_char_val, digit_char_val]
      omega

theorem isdigit_not_space (d : Byte) (h : isdigit d = true) :
    isspace d = false ∧ d ≠ 45 ∧ d ≠ 43 := by
  simp only [isdigit, Bool.and_eq_true, decide_eq_true_eq] at h
  refine ⟨?_, ?_, ?_⟩
  · simp only [isspace, Bool.or_eq_false_iff, decide_eq_false_iff_not, Bool.and_eq_false_iff]
    omega
  · intro e
    rw [e] at h
    revert h
    decide
  · intro e
    rw [e] at h
    revert h
    decide

/-- C10. Discovery reply round trip: for every configured stream port `p` in 0..65535 and
every received datagram whose first 14 bytes are `CHAT_DISCOVER?`, the server replies with
`CHAT_HERE`, a space and the decimal representation of `p` (the single digit `0` for 0,
otherwise the base-10 digits, most significant first), and the client's handling of that reply
(prefix test against `CHAT_HERE`, then `sscanf` with `%u` on the remainder) succeeds with
exactly `p`; a datagram that does not start with the token gets no reply. -/
theorem discovery_round_trip (p : Nat) (hp : p < 65536) (dgram : List Byte) :
    (dgram.take 14 = DISCOVER_REQUEST →
        discovery_reply p dgram = some (DISCOVER_RESPONSE ++ [32] ++ fmt_u p)
          ∧ discover_server_parse (DISCOVER_RESPONSE ++ [32] ++ fmt_u p) = some p)
      ∧ (dgram.take 14 ≠ DISCOVER_REQUEST → discovery_reply p dgram = none)
      ∧ (p = 0 → fmt_u p = [48])
      ∧ (0 < p → fmt_u p = ((Nat.digits 10 p).reverse).map digit_char) := by
  have hp32 : p % 2 ^ 32 = p := Nat.mod_eq_of_lt (by omega)
  have hp16 : p % 2 ^ 16 = p := Nat.mod_eq_of_lt (by omega)
  have hlenreq : DISCOVER_REQUEST.length = 14 := rfl
  have hlenresp : DISCOVER_RESPONSE.length = 9 := rfl
  have htt : (dgram.take 511).take 14 = dgram.take 14 := by
    rw [List.take_take]
    rfl
  refine ⟨?_, ?_, ?_, ?_⟩
  · intro hreq
    constructor
    · unfold discovery_reply
      have hl : (dgram.take 511).length ≥ 14 := by
        have := congrArg List.length hreq
        simp only [List.length_take, hlenreq] at this ⊢
        omega
      simp only [hlenreq, htt, hreq, hl, and_self, if_true, hp16]
    · obtain ⟨d, tl, e, hd⟩ := fmt_digits_head 9 p
      obtain ⟨s1, s2, s3⟩ := isdigit_not_space d hd
      have hfl : (fmt_u p).length ≤ 10 := fmt_digits_length 10 _
      have hlen : (DISCOVER_RESPONSE ++ [32] ++ fmt_u p).length ≤ 255 := by
        simp only [List.length_append, hlenresp, List.length_singleton]
        omega
      have hscan : scan_digits (fmt_u p ++ [0]) 0 = p := by
        unfold fmt_u
        rw [hp32, scan_fmt_digits 10 p [0] (by omega)]
        rfl
      have hfmt : fmt_u p = d :: tl := by
        unfold fmt_u
        rw [hp32]
        exact e
      unfold discover_server_parse
      rw [List.take_of_length_le hlen]
      have hpre : (DISCOVER_RESPONSE ++ [32] ++ fmt_u p).take DISCOVER_RESPONSE.length
          = DISCOVER_RESPONSE := by
        rw [List.append_assoc, List.take_left]
      have hdrop : (DISCOVER_RESPONSE ++ [32] ++ fmt_u p).drop DISCOVER_RESPONSE.length
          = [32] ++ fmt_u p := by
        rw [List.append_assoc, List.drop_left]
      have hge : (DISCOVER_RESPONSE ++ [32] ++ fmt_u p).length ≥ DISCOVER_RESPONSE.length := by
        simp only [List.length_append]
        omega
      simp only [hge, hpre, and_self, if_true, hdrop]
      have hsc : sscanf_u ([32] ++ fmt_u p ++ [0]) = some p := by
        have hskip : skip_space ([32] ++ fmt_u p ++ [0]) = fmt_u p ++ [0] := by
          have h32 : isspace (32 : Byte) = true := by decide
          rw [hfmt]
          simp only [List.singleton_append, List.cons_append, skip_space, s1, h32, if_true]
          rfl
        unfold sscanf_u
        simp only [hskip]
        have hh : (fmt_u p ++ [0]).head? = some d := by rw [hfmt]; rfl
        have n45 : ¬ (some d = some (45 : Byte)) := fun h => s2 (Option.some.inj h)
        have n43 : ¬ (some d = some (43 : Byte)) := fun h => s3 (Option.some.inj h)
        simp only [hh, n45, n43, or_self, if_false, decide_False]
        rw [hscan, hfmt]
        simp only [List.cons_append, hd, if_true, hp32]
      rw [hsc]
      simp only [Option.getD_some, hp16]
  · intro hne
    unfold discovery_reply
    simp only [htt, hlenreq, hne, and_false, if_false]
  · intro h0
    subst h0
    rfl
  · intro h0
    unfold fmt_u
    rw [hp32]
    exact fmt_digits_eq_digits 10 p h0 (by omega)

theorem discovery_round_trip_witness :
    discovery_reply 5050 DISCOVER_REQUEST
        = some [67, 72, 65, 84, 95, 72, 69, 82, 69, 32, 53, 48, 53, 48]
      ∧ discover_server_parse [67, 72, 65, 84, 95, 72, 69, 82, 69, 32, 53, 48, 53, 48] = some 5050
      ∧ discover_server_parse (DISCOVER_RESPONSE ++ [32] ++ fmt_u 5050) = some 5050 :=
  ⟨by decide, by decide,
    ((discovery_round_trip 5050 (by decide) DISCOVER_REQUEST).1 (by decide)).2⟩

/-! ## Facts about the reactor -/

/-- C11, the code at a failing input. `example_server` is the state one cycle after start-up
with three connections accepted. The next cycle is the single event "descriptor 8 readable":
its frame is broadcast, the enqueue to the broken descriptor 6 fails and sets its `closed`
flag, and at the end of the cycle descriptor 6 is still in the registry, still not passed to
`close`, with `closed = true`. -/
theorem closed_peer_stays_registered :
    (process_batch (fun _ => true) example_server [(8, EPOLLIN)]).clients.map
        (fun c => (c.fd, c.closed)) = [(8, false), (7, false), (6, true)]
      ∧ example_server.clients.map (fun c => (c.fd, c.closed))
          = [(8, false), (7, false), (6, false)]
      ∧ (process_batch (fun _ => true) example_server [(8, EPOLLIN)]).released = [] := by
  decide

/-- What a flush that does not fail has done: the buffer is well formed and the bytes moved
from its front to the transport, in order. -/
theorem flush_ok (t : Transport) (out : Buffer) (hwf : out.wf)
    (h : ¬ (flush_buffered_writes t out).1 < 0) :
    (flush_buffered_writes t out).2.2.wf
      ∧ (flush_buffered_writes t out).2.1.written ++ (flush_buffered_writes t out).2.2.live
          = t.written ++ out.live := by
  unfold flush_buffered_writes at h ⊢
  by_cases h0 : out.length = 0
  · simp only [h0, if_true]
    exact ⟨hwf, trivial⟩
  · simp only [h0, if_false] at h ⊢
    by_cases hw : (write_fully_nonblocking t out.live).1 < 0
    · simp [hw] at h
    · simp only [hw, if_false]
      obtain ⟨n, e1, _, e3⟩ := write_fully_spec t out.live hw
      have et : (write_fully_nonblocking t out.live).1.toNat = n := by
        rw [e1]
        exact Int.toNat_natCast n
      obtain ⟨cw, cl, _⟩ := Buffer.consume_ok out n hwf
      rw [et]
      refine ⟨cw, ?_⟩
      show (write_fully_nonblocking t out.live).2.written ++ (out.consume n).live = _
      rw [e3, cl, List.append_assoc, List.take_append_drop]

theorem flush_clean (t : Transport) (out : Buffer) (ht : t.noError) :
    ¬ (flush_buffered_writes t out).1 < 0 ∧ (flush_buffered_writes t out).2.1.noError := by
  unfold flush_buffered_writes
  obtain ⟨c1, c2⟩ := write_fully_clean t out.live ht
  by_cases h0 : out.length = 0
  · simp only [h0, if_true]
    exact ⟨by decide, ht⟩
  · simp only [h0, if_false, c1]
    refine ⟨?_, c2⟩
    split_ifs <;> decide

/-- The return value of a flush: 1 iff there was something to write and the buffer is empty
afterwards; 0 without touching anything when the buffer was empty. -/
theorem flush_ret (t : Transport) (out : Buffer) :
    ((flush_buffered_writes t out).1 = 1 ↔
        out.length ≠ 0 ∧ (flush_buffered_writes t out).2.2.length = 0)
      ∧ (out.length = 0 → flush_buffered_writes t out = (0, t, out)) := by
  unfold flush_buffered_writes
  by_cases h0 : out.length = 0
  · simp [h0]
  · simp only [h0, if_false]
    by_cases hw : (write_fully_nonblocking t out.live).1 < 0
    · simp [hw, h0]
    · simp only [hw, if_false]
      by_cases hl : (out.consume (write_fully_nonblocking t out.live).1.toNat).length = 0
      · simp [hl, h0]
      · simp [hl, h0]

/-- Any run of calls on a well-formed buffer over a transport that reports no error, with
memory available and payloads within the limit, keeps the buffer well formed, the transport
free of errors, and adds to the outgoing stream the frames of the `send` calls, in order. -/
theorem run_calls_stream (alloc : Nat → Bool) (ha : ∀ n, alloc n = true)
    (calls : List OutCall) (st : Transport × Buffer) (hwf : st.2.wf) (ht : st.1.noError)
    (hP : ∀ c ∈ calls, c.size ≤ MAX_MESSAGE_SIZE) :
    (run_calls alloc st calls).2.wf ∧ (run_calls alloc st calls).1.noError
      ∧ (run_calls alloc st calls).1.written ++ (run_calls alloc st calls).2.live
          = st.1.written ++ st.2.live ++ frames_of calls := by
  induction calls generalizing st with
  | nil =>
    simp only [run_calls, List.foldl_nil, frames_of, List.append_nil]
    exact ⟨hwf, ht, trivial⟩
  | cons call rest ih =>
    have hP' : ∀ c ∈ rest, c.size ≤ MAX_MESSAGE_SIZE :=
      fun c h => hP c (List.mem_cons_of_mem _ h)
    cases call with
    | send P =>
      have hlen : P.length ≤ MAX_MESSAGE_SIZE := hP (.send P) (List.mem_cons_self _ _)
      obtain ⟨s0, s1⟩ := send_succeeds alloc st.1 st.2 P ha ht hlen
      obtain ⟨w, _, h1, h2⟩ := send_ok alloc st.1 st.2 P hwf s0
      have hs : (send_framed_or_buffer alloc st.1 st.2 P).2.1.written
          ++ (send_framed_or_buffer alloc st.1 st.2 P).2.2.live
          = st.1.written ++ st.2.live ++ frame P := by
        by_cases he : st.2.length = 0
        · obtain ⟨x, e1, e2⟩ := h2 he
          rw [e1, Buffer.live_nil_of_length _ he, List.append_assoc, e2, List.append_nil]
        · obtain ⟨e1, e2⟩ := h1 he
          rw [e1, e2, List.append_assoc]
      obtain ⟨i1, i2, i3⟩ := ih (send_framed_or_buffer alloc st.1 st.2 P).2 w s1 hP'
      refine ⟨i1, i2, ?_⟩
      show (run_calls alloc (send_framed_or_buffer alloc st.1 st.2 P).2 rest).1.written
        ++ (run_calls alloc (send_framed_or_buffer alloc st.1 st.2 P).2 rest).2.live = _
      rw [i3, hs, frames_of]
      simp only [List.append_assoc]
    | flush =>
      obtain ⟨c0, c1⟩ := flush_clean st.1 st.2 ht
      obtain ⟨w, hs⟩ := flush_ok st.1 st.2 hwf c0
      obtain ⟨i1, i2, i3⟩ := ih (flush_buffered_writes st.1 st.2).2 w c1 hP'
      refine ⟨i1, i2, ?_⟩
      show (run_calls alloc (flush_buffered_writes st.1 st.2).2 rest).1.written
        ++ (run_calls alloc (flush_buffered_writes st.1 st.2).2 rest).2.live = _
      rw [i3, hs, frames_of]

/-- C13, as the spec states it, fails in its last clause: on a new connection whose transport
takes what it is given and reports no error, one `send_framed_or_buffer` goes out whole and
leaves the outbound buffer empty; the `flush_buffered_writes` that follows finds nothing to
write, leaves the buffer empty and returns 0, not 1. -/
theorem flush_on_empty_counterexample :
    (Transport.mk [] [.wrote 100, .wrote 100]).noError
      ∧ (run_calls (fun _ => true) (⟨[], [.wrote 100, .wrote 100]⟩, Buffer.empty)
          [.send [7, 8]]).1.written = [0, 0, 0, 2, 7, 8]
      ∧ (run_calls (fun _ => true) (⟨[], [.wrote 100, .wrote 100]⟩, Buffer.empty)
          [.send [7, 8]]).2.length = 0
      ∧ (flush_buffered_writes
          (run_calls (fun _ => true) (⟨[], [.wrote 100, .wrote 100]⟩, Buffer.empty)
            [.send [7, 8]]).1
          (run_calls (fun _ => true) (⟨[], [.wrote 100, .wrote 100]⟩, Buffer.empty)
            [.send [7, 8]]).2).1 = 0
      ∧ (flush_buffered_writes
          (run_calls (fun _ => true) (⟨[], [.wrote 100, .wrote 100]⟩, Buffer.empty)
            [.send [7, 8]]).1
          (run_calls (fun _ => true) (⟨[], [.wrote 100, .wrote 100]⟩, Buffer.empty)
            [.send [7, 8]]).2).2.2.length = 0
      ∧ ¬ ((flush_buffered_writes
            (run_calls (fun _ => true) (⟨[], [.wrote 100, .wrote 100]⟩, Buffer.empty)
              [.send [7, 8]]).1
            (run_calls (fun _ => true) (⟨[], [.wrote 100, .wrote 100]⟩, Buffer.empty)
              [.send [7, 8]]).2).1 = 1 ↔
          (flush_buffered_writes
            (run_calls (fun _ => true) (⟨[], [.wrote 100, .wrote 100]⟩, Buffer.empty)
              [.send [7, 8]]).1
            (run_calls (fun _ => true) (⟨[], [.wrote 100, .wrote 100]⟩, Buffer.empty)
              [.send [7, 8]]).2).2.2.length = 0) := by
  decide

/-- C13, amended. Per-peer stream integrity: on a connection whose outbound buffer is well
formed, with memory available and a transport that reports no error, after any number `n` of
the calls of any interleaving of `send_framed_or_buffer` (payloads of at most 4096 bytes) and
`flush_buffered_writes`, the bytes accepted by the transport followed by the outbound buffer
are what they were at the start (nothing, on a new connection) followed by the frames of the
payloads sent so far, whole and in call order; and `flush_buffered_writes` returns 1 exactly
when the outbound buffer held bytes before the call and is empty after it (on an already empty
buffer it writes nothing and returns 0), never -1 on such a transport. -/
theorem stream_integrity (alloc : Nat → Bool) (ha : ∀ n, alloc n = true) (t : Transport)
    (out : Buffer) (calls : List OutCall) (hwf : out.wf) (ht : t.noError)
    (hP : ∀ c ∈ calls, c.size ≤ MAX_MESSAGE_SIZE) :
    (∀ n : Nat,
        (run_calls alloc (t, out) (calls.take n)).1.written
            ++ (run_calls alloc (t, out) (calls.take n)).2.live
          = t.written ++ out.live ++ frames_of (calls.take n)
        ∧ ((flush_buffered_writes (run_calls alloc (t, out) (calls.take n)).1
              (run_calls alloc (t, out) (calls.take n)).2).1 = 1 ↔
            (run_calls alloc (t, out) (calls.take n)).2.length ≠ 0
              ∧ (flush_buffered_writes (run_calls alloc (t, out) (calls.take n)).1
                  (run_calls alloc (t, out) (calls.take n)).2).2.2.length = 0)
        ∧ ¬ (flush_buffered_writes (run_calls alloc (t, out) (calls.take n)).1
              (run_calls alloc (t, out) (calls.take n)).2).1 < 0)
      ∧ (run_calls alloc (t, out) calls).1.written ++ (run_calls alloc (t, out) calls).2.live
          = t.written ++ out.live ++ frames_of calls := by
  refine ⟨?_, (run_calls_stream alloc ha calls (t, out) hwf ht hP).2.2⟩
  intro n
  have hP' : ∀ c ∈ calls.take n, c.size ≤ MAX_MESSAGE_SIZE :=
    fun c h => hP c (List.mem_of_mem_take h)
  obtain ⟨_, r2, r3⟩ := run_calls_stream alloc ha (calls.take n) (t, out) hwf ht hP'
  exact ⟨r3, (flush_ret _ _).1, (flush_clean _ _ r2).1⟩

theorem stream_integrity_witness :
    (run_calls (fun _ => true) (⟨[], [.wrote 2, .wouldBlock, .wrote 3, .wrote 100]⟩, Buffer.empty)
        [.send [7, 8], .send [9], .flush, .send [], .flush]).1.written
        = [0, 0, 0, 2, 7, 8, 0, 0, 0, 1, 9]
      ∧ (run_calls (fun _ => true)
          (⟨[], [.wrote 2, .wouldBlock, .wrote 3, .wrote 100]⟩, Buffer.empty)
          [.send [7, 8], .send [9], .flush, .send [], .flush]).2.live = [0, 0, 0, 0]
      ∧ (run_calls (fun _ => true)
          (⟨[], [.wrote 2, .wouldBlock, .wrote 3, .wrote 100]⟩, Buffer.empty)
          [.send [7, 8], .send [9], .flush, .send [], .flush]).1.written
          ++ (run_calls (fun _ => true)
            (⟨[], [.wrote 2, .wouldBlock, .wrote 3, .wrote 100]⟩, Buffer.empty)
            [.send [7, 8], .send [9], .flush, .send [], .flush]).2.live
          = [] ++ Buffer.empty.live
            ++ frames_of [.send [7, 8], .send [9], .flush, .send [], .flush] :=
  ⟨by decide, by decide,
    (stream_integrity (fun _ => true) (fun _ => rfl)
      ⟨[], [.wrote 2, .wouldBlock, .wrote 3, .wrote 100]⟩ Buffer.empty
      [.send [7, 8], .send [9], .flush, .send [], .flush] (by decide) (by decide)
      (by decide)).2⟩

end SocketChat
